import Mathlib

/-!
# raw2trace.h: a verification development

A shallow embedding of the data structures declared in
`clients/drcachesim/tracer/raw2trace.h`:

* `bitset_hash_table_t`: the sparse bitset recording emitted encodings;
* `instr_summary_t`: the per-instruction summary and its memory-operand flags;
* `raw2trace_t::block_hashtable_t`: the per-worker decoded-block cache.

Machine integers are natural numbers; 64-bit wrap-around is written out with
`% 2 ^ 64` wherever the source computes in `size_t` or `uint64`.  A C++ operation
whose behaviour is undefined (dereferencing the `end()` iterator, indexing a
vector out of bounds) returns `none`.
-/

namespace raw2trace

/-! ## bitset_hash_table_t -/

/-- The constant `BLOCK_SIZE_BIT = 13` of `bitset_hash_table_t`. -/
def BLOCK_SIZE_BIT : Nat := 13

/-- The constant `BLOCK_SIZE = (1 << BLOCK_SIZE_BIT)` of `bitset_hash_table_t`. -/
def BLOCK_SIZE : Nat := 1 <<< BLOCK_SIZE_BIT

/-- Bitwise complement of a `size_t` value (the operator `~` at 64 bits). -/
def size_t_not (x : Nat) : Nat := (2 ^ 64 - 1) - x % 2 ^ 64

/-- The method `convert`: the pair of `pc & ~(BLOCK_SIZE - 1)` and
`static_cast<ushort>(pc & (BLOCK_SIZE - 1))`. -/
def convert (pc : Nat) : Nat × Nat :=
  (pc &&& size_t_not (BLOCK_SIZE - 1), (pc &&& (BLOCK_SIZE - 1)) % 2 ^ 16)

/-- A `std::bitset<BLOCK_SIZE>`: the value of each bit. -/
abbrev bitset_t := Nat → Bool

/-- The value-initialised bitset `std::bitset<BLOCK_SIZE>()`: every bit is zero. -/
def bitset_t.zero : bitset_t := fun _ => false

/-- The assignment `bits[i] = v`. -/
def bitset_t.assign (bits : bitset_t) (i : Nat) (v : Bool) : bitset_t :=
  fun j => if j = i then v else bits j

/-- The class `bitset_hash_table_t<T>` for a 64-bit `T`.  `page_table_` maps a key to
its bitset (`none`: no entry under that key).  `last_block_` is the cached iterator:
`some k` points at the entry of key `k`, `none` is `page_table_.end()`. -/
structure bitset_hash_table_t where
  page_table_ : Nat → Option bitset_t
  last_block_ : Option Nat

/-- The call `page_table_.emplace(key, bits)` followed by a write through the returned
iterator, or a write through an iterator at `key`: the entry of `key` becomes `bits`. -/
def page_table_put (pt : Nat → Option bitset_t) (key : Nat) (bits : bitset_t) :
    Nat → Option bitset_t :=
  fun k => if k = key then some bits else pt k

/-- The call `page_table_.find(key)`: an iterator at `key`, or `end()`. -/
def page_table_find (pt : Nat → Option bitset_t) (key : Nat) : Option Nat :=
  match pt key with
  | some _ => some key
  | none => none

/-- The constructor: one entry, keyed `T(0)`, with an all-zero bitset, and
`last_block_ = page_table_.begin()`, the iterator at that only entry. -/
def bitset_hash_table_t.construct : bitset_hash_table_t :=
  { page_table_ := page_table_put (fun _ => none) 0 bitset_t.zero
    last_block_ := some 0 }

/-- The tail of `find_and_insert`, after `last_block_` has been settled at key `k`:
test the bit, and set it when it was clear. -/
def find_and_insert_tail (s : bitset_hash_table_t) (k : Nat) (bit : Nat) :
    Option (Bool × bitset_hash_table_t) :=
  match s.page_table_ k with
  | none => none
  | some bits =>
    if bits bit = true then
      some (false, { s with last_block_ := some k })
    else
      some (true, { page_table_ := page_table_put s.page_table_ k (bits.assign bit true)
                    last_block_ := some k })

/-- The method `find_and_insert`.  `none` stands for the dereference of an iterator
that points at no entry. -/
def bitset_hash_table_t.find_and_insert (s : bitset_hash_table_t) (pc : Nat) :
    Option (Bool × bitset_hash_table_t) :=
  let block := convert pc
  match s.last_block_ with
  | none => none
  | some k =>
    if block.1 ≠ k then
      match page_table_find s.page_table_ block.1 with
      | none =>
        some (true,
          { page_table_ :=
              page_table_put s.page_table_ block.1 (bitset_t.zero.assign block.2 true)
            last_block_ := some block.1 })
      | some k1 => find_and_insert_tail s k1 block.2
    else find_and_insert_tail s k block.2

/-- The method `erase`.  `none` stands for the dereference of an iterator that points
at no entry. -/
def bitset_hash_table_t.erase (s : bitset_hash_table_t) (pc : Nat) :
    Option bitset_hash_table_t :=
  let block := convert pc
  match s.last_block_ with
  | none => none
  | some k =>
    let last := if k ≠ block.1 then page_table_find s.page_table_ block.1 else some k
    match last with
    | none => some { s with last_block_ := none }
    | some k1 =>
      match s.page_table_ k1 with
      | none => none
      | some bits =>
        some { page_table_ := page_table_put s.page_table_ k1 (bits.assign block.2 false)
               last_block_ := some k1 }

/-- The method `clear`: empty the map, then set it up as the constructor does. -/
def bitset_hash_table_t.clear (_s : bitset_hash_table_t) : bitset_hash_table_t :=
  { page_table_ := page_table_put (fun _ => none) 0 bitset_t.zero
    last_block_ := some 0 }

/-- Whether `pc` is recorded: the bit `pc & 8191` of the bitset keyed `pc & ~8191` is
present and set. -/
def bitset_hash_table_t.recorded (s : bitset_hash_table_t) (pc : Nat) : Bool :=
  match s.page_table_ (convert pc).1 with
  | some bits => bits (convert pc).2
  | none => false

/-- Whether the block of `pc` has an entry in `page_table_`. -/
def bitset_hash_table_t.block_present (s : bitset_hash_table_t) (pc : Nat) : Bool :=
  (s.page_table_ (convert pc).1).isSome

/-- The cached iterator is valid: `last_block_` points at an entry of `page_table_`. -/
def bitset_hash_table_t.last_block_valid (s : bitset_hash_table_t) : Bool :=
  match s.last_block_ with
  | some k => (s.page_table_ k).isSome
  | none => false

/-- One call on a `bitset_hash_table_t`. -/
inductive call_t where
  | find_and_insert (pc : Nat)
  | erase (pc : Nat)
  | clear
  deriving DecidableEq, Repr

/-- The address a call is made with (`clear` has none). -/
def call_t.addr : call_t → Nat
  | .find_and_insert pc => pc
  | .erase pc => pc
  | .clear => 0

/-- The table after one call, the return value of `find_and_insert` dropped. -/
def apply_call (s : bitset_hash_table_t) : call_t → Option bitset_hash_table_t
  | .find_and_insert pc => (s.find_and_insert pc).map Prod.snd
  | .erase pc => s.erase pc
  | .clear => some s.clear

/-- The table after a sequence of calls, made from left to right. -/
def run_calls (s : bitset_hash_table_t) : List call_t → Option bitset_hash_table_t
  | [] => some s
  | c :: cs =>
    match apply_call s c with
    | some s1 => run_calls s1 cs
    | none => none

/-- Every `erase` of the sequence is made with an address whose block has an entry in
`page_table_` at the time of the call. -/
def erases_present (s : bitset_hash_table_t) : List call_t → Bool
  | [] => true
  | c :: cs =>
    (match c with
      | .erase pc => s.block_present pc
      | _ => true) &&
    (match apply_call s c with
      | some s1 => erases_present s1 cs
      | none => true)

/-! ## instr_summary_t -/

/-- The addressing mode `opnd_t` of a memory reference; its content plays no part here. -/
abbrev opnd_t := Nat

/-- The struct `instr_summary_t::memref_summary_t`. -/
structure memref_summary_t where
  opnd : opnd_t
  remember_base : Bool
  use_remembered_base : Bool
  deriving DecidableEq, Repr

/-- The constructor `memref_summary_t(opnd_t opnd)`: both flags start cleared. -/
def memref_summary_t.construct (opnd : opnd_t) : memref_summary_t :=
  { opnd := opnd, remember_base := false, use_remembered_base := false }

/-- The struct `instr_summary_t`, with the default member initialisers of the source. -/
structure instr_summary_t where
  pc_ : Nat := 0
  type_ : Nat := 0
  prefetch_type_ : Nat := 0
  flush_type_ : Nat := 0
  length_ : Nat := 0
  branch_target_pc_ : Nat := 0
  mem_srcs_and_dests_ : List memref_summary_t := []
  num_mem_srcs_ : Nat := 0
  packed_ : Nat := 0
  deriving DecidableEq, Repr

/-- The two assignments made through `target` by both flag setters: each flag becomes
its old value OR-ed with the argument. -/
def memref_summary_t.or_flags (target : memref_summary_t)
    (use_remembered_base remember_base : Bool) : memref_summary_t :=
  { target with
    use_remembered_base := target.use_remembered_base || use_remembered_base
    remember_base := target.remember_base || remember_base }

/-- The method `set_mem_src_flags`.  `none` stands for a failed
`DEBUG_ASSERT(pos < mem_srcs_and_dests_.size())`, that is an out-of-bounds access. -/
def instr_summary_t.set_mem_src_flags (s : instr_summary_t) (pos : Nat)
    (use_remembered_base remember_base : Bool) : Option instr_summary_t :=
  match s.mem_srcs_and_dests_[pos]? with
  | none => none
  | some target =>
    some { s with
      mem_srcs_and_dests_ :=
        s.mem_srcs_and_dests_.set pos (target.or_flags use_remembered_base remember_base) }

/-- The method `set_mem_dest_flags`; the index `num_mem_srcs_ + pos` is computed in
`size_t`.  `none` stands for a failed
`DEBUG_ASSERT(num_mem_srcs_ + pos < mem_srcs_and_dests_.size())`. -/
def instr_summary_t.set_mem_dest_flags (s : instr_summary_t) (pos : Nat)
    (use_remembered_base remember_base : Bool) : Option instr_summary_t :=
  match s.mem_srcs_and_dests_[(s.num_mem_srcs_ + pos) % 2 ^ 64]? with
  | none => none
  | some target =>
    some { s with
      mem_srcs_and_dests_ :=
        s.mem_srcs_and_dests_.set ((s.num_mem_srcs_ + pos) % 2 ^ 64)
          (target.or_flags use_remembered_base remember_base) }

/-- The method `mem_src_at`; `none` is an out-of-bounds access. -/
def instr_summary_t.mem_src_at (s : instr_summary_t) (pos : Nat) : Option memref_summary_t :=
  s.mem_srcs_and_dests_[pos]?

/-- The method `mem_dest_at`; `none` is an out-of-bounds access. -/
def instr_summary_t.mem_dest_at (s : instr_summary_t) (pos : Nat) : Option memref_summary_t :=
  s.mem_srcs_and_dests_[(s.num_mem_srcs_ + pos) % 2 ^ 64]?

/-- The method `num_mem_srcs`. -/
def instr_summary_t.num_mem_srcs (s : instr_summary_t) : Nat :=
  s.num_mem_srcs_

/-- The method `num_mem_dests`: `mem_srcs_and_dests_.size() - num_mem_srcs_` in `size_t`. -/
def instr_summary_t.num_mem_dests (s : instr_summary_t) : Nat :=
  (s.mem_srcs_and_dests_.length + 2 ^ 64 - s.num_mem_srcs_ % 2 ^ 64) % 2 ^ 64

/-! ## raw2trace_t::block_hashtable_t -/

/-- The method `hash_key`: `(modidx << PC_MODOFFS_BITS) | modoffs` in `uint64`.  The
macro `PC_MODOFFS_BITS` is defined outside this header and is the first argument. -/
def hash_key (PC_MODOFFS_BITS : Nat) (modidx modoffs : Nat) : Nat :=
  ((modidx <<< PC_MODOFFS_BITS) % 2 ^ 64) ||| modoffs

/-- The class `block_hashtable_t` over
`std::unordered_map<uint64, std::unique_ptr<block_summary_t>>`.  A `block_summary_t *` is
its address, `0` for `nullptr`; `table key = none` means no entry under `key`. -/
structure block_hashtable_t where
  table : Nat → Option Nat

/-- The constructor: an empty table. -/
def block_hashtable_t.construct : block_hashtable_t :=
  { table := fun _ => none }

/-- The method `lookup`: `table[hash_key(modidx, modoffs)].get()`.  The subscript
creates an entry holding `nullptr` when the key has none. -/
def block_hashtable_t.lookup (PC_MODOFFS_BITS : Nat) (s : block_hashtable_t)
    (modidx modoffs : Nat) : Nat × block_hashtable_t :=
  match s.table (hash_key PC_MODOFFS_BITS modidx modoffs) with
  | some block => (block, s)
  | none =>
    (0, { table := fun k =>
            if k = hash_key PC_MODOFFS_BITS modidx modoffs then some 0 else s.table k })

/-- The method `add`: `table[hash_key(modidx, modoffs)].reset(block)`. -/
def block_hashtable_t.add (PC_MODOFFS_BITS : Nat) (s : block_hashtable_t)
    (modidx modoffs : Nat) (block : Nat) : block_hashtable_t :=
  { table := fun k =>
      if k = hash_key PC_MODOFFS_BITS modidx modoffs then some block else s.table k }

/-- The method `clear`: `table.clear()`. -/
def block_hashtable_t.clear (_s : block_hashtable_t) : block_hashtable_t :=
  { table := fun _ => none }

/-- One call on a `block_hashtable_t`. -/
inductive cache_call_t where
  | lookup (modidx modoffs : Nat)
  | add (modidx modoffs : Nat) (block : Nat)
  | clear
  deriving DecidableEq, Repr

/-- The cache after one call, the return value of `lookup` dropped. -/
def apply_cache_call (PC_MODOFFS_BITS : Nat) (s : block_hashtable_t) :
    cache_call_t → block_hashtable_t
  | .lookup modidx modoffs => (s.lookup PC_MODOFFS_BITS modidx modoffs).2
  | .add modidx modoffs block => s.add PC_MODOFFS_BITS modidx modoffs block
  | .clear => s.clear

/-- The cache after a sequence of calls, made from left to right. -/
def run_cache_calls (PC_MODOFFS_BITS : Nat) (s : block_hashtable_t) :
    List cache_call_t → block_hashtable_t
  | [] => s
  | c :: cs => run_cache_calls PC_MODOFFS_BITS (apply_cache_call PC_MODOFFS_BITS s c) cs

/-- The key of a call lies in the two bit-fields the raw trace stores it in:
`modoffs` in `PC_MODOFFS_BITS` bits and `modidx` in the remaining
`64 - PC_MODOFFS_BITS` bits of a `uint64`. -/
def cache_call_t.in_fields (PC_MODOFFS_BITS : Nat) : cache_call_t → Bool
  | .lookup modidx modoffs =>
    decide (modidx < 2 ^ (64 - PC_MODOFFS_BITS)) && decide (modoffs < 2 ^ PC_MODOFFS_BITS)
  | .add modidx modoffs _ =>
    decide (modidx < 2 ^ (64 - PC_MODOFFS_BITS)) && decide (modoffs < 2 ^ PC_MODOFFS_BITS)
  | .clear => true

/-- The call is an `add` of the key `(modidx, modoffs)`. -/
def cache_call_t.adds (modidx modoffs : Nat) : cache_call_t → Bool
  | .lookup _ _ => false
  | .add m o _ => decide (m = modidx) && decide (o = modoffs)
  | .clear => false

/-- The call is `clear`. -/
def cache_call_t.clears : cache_call_t → Bool
  | .clear => true
  | _ => false

/-- The table that a returning `find_and_insert(pc)` leaves, in closed form: the bit of
`pc` is set in the bitset of its block (created all-zero when the block had no entry)
and `last_block_` points at that block. -/
def bitset_hash_table_t.inserted (s : bitset_hash_table_t) (pc : Nat) : bitset_hash_table_t :=
  { page_table_ :=
      page_table_put s.page_table_ (convert pc).1
        (((s.page_table_ (convert pc).1).getD bitset_t.zero).assign (convert pc).2 true)
    last_block_ := some (convert pc).1 }

/-- The table that a returning `erase(pc)` leaves, in closed form: when the block of `pc`
has an entry its bit is cleared and `last_block_` points at the block, otherwise only
`last_block_` changes, to `page_table_.end()`. -/
def bitset_hash_table_t.erased (s : bitset_hash_table_t) (pc : Nat) : bitset_hash_table_t :=
  match s.page_table_ (convert pc).1 with
  | some bits =>
    { page_table_ :=
        page_table_put s.page_table_ (convert pc).1 (bits.assign (convert pc).2 false)
      last_block_ := some (convert pc).1 }
  | none => { s with last_block_ := none }

/-- The default constructor `instr_summary_t()`: every member keeps its default member
initialiser. -/
def instr_summary_t.construct : instr_summary_t := {}

/-- The method `pc`. -/
def instr_summary_t.pc (s : instr_summary_t) : Nat :=
  s.pc_

/-- The method `length`. -/
def instr_summary_t.length (s : instr_summary_t) : Nat :=
  s.length_

/-- The method `next_pc`: `pc_ + length_`, an address of 64 bits. -/
def instr_summary_t.next_pc (s : instr_summary_t) : Nat :=
  (s.pc_ + s.length_) % 2 ^ 64

/-! ## raw2trace_statistic_t -/

/-- The enumeration `raw2trace_statistic_t`. -/
inductive raw2trace_statistic_t where
  | RAW2TRACE_STAT_COUNT_ELIDED
  | RAW2TRACE_STAT_DUPLICATE_SYSCALL
  | RAW2TRACE_STAT_RSEQ_ABORT
  | RAW2TRACE_STAT_RSEQ_SIDE_EXIT
  | RAW2TRACE_STAT_FALSE_SYSCALL
  | RAW2TRACE_STAT_EARLIEST_TRACE_TIMESTAMP
  | RAW2TRACE_STAT_LATEST_TRACE_TIMESTAMP
  | RAW2TRACE_STAT_FINAL_TRACE_INSTRUCTION_COUNT
  | RAW2TRACE_STAT_KERNEL_INSTR_COUNT
  | RAW2TRACE_STAT_SYSCALL_TRACES_CONVERTED
  | RAW2TRACE_STAT_SYSCALL_TRACES_CONVERSION_FAILED
  | RAW2TRACE_STAT_SYSCALL_TRACES_NON_FATAL_DECODING_ERROR_COUNT
  | RAW2TRACE_STAT_SYSCALL_TRACES_CONVERSION_EMPTY
  | RAW2TRACE_STAT_SYSCALL_TRACES_INJECTED
  | RAW2TRACE_STAT_MAX
  deriving DecidableEq, Repr

open raw2trace_statistic_t in
/-- The enumerators in the order of their declaration.  None is given a value in the
source, so an enumerator's value is its position in this list. -/
def raw2trace_statistic_t.enumerators : List raw2trace_statistic_t :=
  [RAW2TRACE_STAT_COUNT_ELIDED,
   RAW2TRACE_STAT_DUPLICATE_SYSCALL,
   RAW2TRACE_STAT_RSEQ_ABORT,
   RAW2TRACE_STAT_RSEQ_SIDE_EXIT,
   RAW2TRACE_STAT_FALSE_SYSCALL,
   RAW2TRACE_STAT_EARLIEST_TRACE_TIMESTAMP,
   RAW2TRACE_STAT_LATEST_TRACE_TIMESTAMP,
   RAW2TRACE_STAT_FINAL_TRACE_INSTRUCTION_COUNT,
   RAW2TRACE_STAT_KERNEL_INSTR_COUNT,
   RAW2TRACE_STAT_SYSCALL_TRACES_CONVERTED,
   RAW2TRACE_STAT_SYSCALL_TRACES_CONVERSION_FAILED,
   RAW2TRACE_STAT_SYSCALL_TRACES_NON_FATAL_DECODING_ERROR_COUNT,
   RAW2TRACE_STAT_SYSCALL_TRACES_CONVERSION_EMPTY,
   RAW2TRACE_STAT_SYSCALL_TRACES_INJECTED,
   RAW2TRACE_STAT_MAX]

/-- The integer value of an enumerator. -/
def raw2trace_statistic_t.value (stat : raw2trace_statistic_t) : Nat :=
  raw2trace_statistic_t.enumerators.indexOf stat

/-- A named statistic: every enumerator but the closing `RAW2TRACE_STAT_MAX`. -/
def raw2trace_statistic_t.named (stat : raw2trace_statistic_t) : Bool :=
  decide (stat ≠ .RAW2TRACE_STAT_MAX)

open raw2trace_statistic_t in
/-- The counters the specification lists for the statistic enumeration, in its words and
order: elision count; duplicate, false, injected, converted and failed syscall counts;
rseq abort and side-exit counts; non-fatal decode error count; earliest and latest
timestamp; final instruction count; kernel instruction count. -/
def spec_listed_statistics : List raw2trace_statistic_t :=
  [RAW2TRACE_STAT_COUNT_ELIDED,
   RAW2TRACE_STAT_DUPLICATE_SYSCALL,
   RAW2TRACE_STAT_FALSE_SYSCALL,
   RAW2TRACE_STAT_SYSCALL_TRACES_INJECTED,
   RAW2TRACE_STAT_SYSCALL_TRACES_CONVERTED,
   RAW2TRACE_STAT_SYSCALL_TRACES_CONVERSION_FAILED,
   RAW2TRACE_STAT_RSEQ_ABORT,
   RAW2TRACE_STAT_RSEQ_SIDE_EXIT,
   RAW2TRACE_STAT_SYSCALL_TRACES_NON_FATAL_DECODING_ERROR_COUNT,
   RAW2TRACE_STAT_EARLIEST_TRACE_TIMESTAMP,
   RAW2TRACE_STAT_LATEST_TRACE_TIMESTAMP,
   RAW2TRACE_STAT_FINAL_TRACE_INSTRUCTION_COUNT,
   RAW2TRACE_STAT_KERNEL_INSTR_COUNT]

/-! ## raw2trace_t and raw2trace_thread_data_t -/

/-- The largest `int`. -/
def INT_MAX : Int := 2 ^ 31 - 1

/-- The smallest `int`. -/
def INT_MIN : Int := -(2 ^ 31)

/-- The product of two `int` values; `none` when it does not fit an `int` (signed
overflow). -/
def int_mul (a b : Int) : Option Int :=
  if INT_MIN ≤ a * b ∧ a * b ≤ INT_MAX then some (a * b) else none

/-- The conversion of an `int` to `uint64_t`: the value modulo `2 ^ 64`. -/
def int_to_uint64 (x : Int) : Nat :=
  (x % 2 ^ 64).toNat

/-- The default argument `10 * 1000 * 1000` of the constructor of `raw2trace_t`,
evaluated from left to right in `int`. -/
def default_chunk_instr_count_expr : Option Int :=
  (int_mul 10 1000).bind (fun x => int_mul x 1000)

/-- The default value of the parameter `uint64_t chunk_instr_count`. -/
def default_chunk_instr_count : Option Nat :=
  default_chunk_instr_count_expr.map int_to_uint64

/-- The constant `WRITE_BUFFER_SIZE = 260` of `raw2trace_t`. -/
def WRITE_BUFFER_SIZE : Nat := 260

/-- The count of memref entries of an `ld4b` that the comment on `WRITE_BUFFER_SIZE`
gives for a vector length of `vl_bits` bits: `(vl_bits / 8) * 4`. -/
def ld4b_memref_entries (vl_bits : Nat) : Nat :=
  (vl_bits / 8) * 4

/-- The kinds of `trace_entry_t` that the rseq buffer tells apart. -/
inductive trace_type_t where
  | encoding
  | instr
  | memref
  | marker
  deriving DecidableEq, Repr

/-- Modelled from the spec: the output record `trace_entry_t`, declared outside this
header ("fixed-layout trace records (type tag + payload)"). -/
structure trace_entry_t where
  type : trace_type_t
  addr : Nat
  deriving DecidableEq, Repr

/-- The struct `branch_info_t`. -/
structure branch_info_t where
  pc : Nat
  target_pc : Nat
  buf_idx : Int
  deriving DecidableEq, Repr

/-- The sentinel `INJECT_NONE = -1` of `raw2trace_thread_data_t`. -/
def INJECT_NONE : Int := -1

/-- The statistics members of `raw2trace_t`, the converter's global totals. -/
structure raw2trace_t where
  count_elided_ : Nat
  count_duplicate_syscall_ : Nat
  count_false_syscall_ : Nat
  count_rseq_abort_ : Nat
  count_rseq_side_exit_ : Nat
  earliest_trace_timestamp_ : Nat
  latest_trace_timestamp_ : Nat
  final_trace_instr_count_ : Nat
  kernel_instr_count_ : Nat
  syscall_traces_converted_ : Nat
  syscall_traces_conversion_failed_ : Nat
  syscall_traces_non_fatal_decoding_error_count_ : Nat
  syscall_traces_conversion_empty_ : Nat
  syscall_traces_injected_ : Nat
  deriving DecidableEq, Repr

/-- The default member initialisers of the statistics of `raw2trace_t`;
`(std::numeric_limits<uint64>::max)()` is `2 ^ 64 - 1`. -/
def raw2trace_t.construct : raw2trace_t :=
  { count_elided_ := 0
    count_duplicate_syscall_ := 0
    count_false_syscall_ := 0
    count_rseq_abort_ := 0
    count_rseq_side_exit_ := 0
    earliest_trace_timestamp_ := 2 ^ 64 - 1
    latest_trace_timestamp_ := 0
    final_trace_instr_count_ := 0
    kernel_instr_count_ := 0
    syscall_traces_converted_ := 0
    syscall_traces_conversion_failed_ := 0
    syscall_traces_non_fatal_decoding_error_count_ := 0
    syscall_traces_conversion_empty_ := 0
    syscall_traces_injected_ := 0 }

/-- The struct `raw2trace_thread_data_t`, without the members whose types are declared
in other headers (the streams, `error`, `file_type`, `pre_read`, `last_entry`,
`last_split_first_entry`, `memref_counter`, `sched_data` and the PT members).  A pointer
is its address, `0` for `nullptr`; `out_buf` is a `std::array` of `WRITE_BUFFER_SIZE`
entries. -/
structure raw2trace_thread_data_t where
  index : Int
  tid : Int
  worker : Int
  version : Int
  cache_line_size : Nat
  delayed_branch : List trace_entry_t
  delayed_branch_empty_ : Bool
  delayed_branch_decode_pcs : List Nat
  delayed_branch_target_pcs : List Nat
  saw_header : Bool
  last_entry_is_split : Bool
  out_buf : Fin WRITE_BUFFER_SIZE → Option trace_entry_t
  prev_instr_was_rep_string : Bool
  last_decode_block_start : Nat
  last_decode_modidx : Nat
  last_decode_modoffs : Nat
  last_block_summary : Nat
  last_window : Nat
  count_elided : Nat
  count_duplicate_syscall : Nat
  count_false_syscall : Nat
  count_rseq_abort : Nat
  count_rseq_side_exit : Nat
  earliest_trace_timestamp : Nat
  latest_trace_timestamp : Nat
  final_trace_instr_count : Nat
  kernel_instr_count : Nat
  syscall_traces_converted : Nat
  syscall_traces_conversion_failed : Nat
  syscall_traces_non_fatal_decoding_error_count : Nat
  syscall_traces_conversion_empty : Nat
  syscall_traces_injected : Nat
  cur_chunk_instr_count : Nat
  cur_chunk_ref_count : Nat
  chunk_count_ : Nat
  last_timestamp_ : Nat
  last_cpu_ : Nat
  last_pc_fallthrough_if_syscall_ : Nat
  encoding_emitted : bitset_hash_table_t
  last_encoding_emitted : Nat
  rseq_want_rollback_ : Bool
  rseq_ever_saw_entry_ : Bool
  rseq_buffering_enabled_ : Bool
  rseq_past_end_ : Bool
  rseq_commit_pc_ : Nat
  rseq_start_pc_ : Nat
  rseq_end_pc_ : Nat
  to_inject_syscall_ : Int
  saw_first_func_id_marker_after_syscall_ : Bool
  rseq_buffer_ : List trace_entry_t
  rseq_commit_idx_ : Int
  rseq_branch_targets_ : List branch_info_t
  rseq_decode_pcs_ : List Nat

/-- The constructor `raw2trace_thread_data_t()`: the members of its initialiser list
(`index`, `tid`, `worker`, `version`, `saw_header`, `last_entry_is_split`,
`prev_instr_was_rep_string`, `last_decode_block_start`, `last_decode_modidx`,
`last_decode_modoffs`, `last_block_summary`) get the values written there, the others
their default member initialiser; the containers start empty and the entries of
`out_buf` are not initialised (`none`). -/
def raw2trace_thread_data_t.construct : raw2trace_thread_data_t :=
  { index := 0
    tid := 0
    worker := 0
    version := 0
    cache_line_size := 0
    delayed_branch := []
    delayed_branch_empty_ := true
    delayed_branch_decode_pcs := []
    delayed_branch_target_pcs := []
    saw_header := false
    last_entry_is_split := false
    out_buf := fun _ => none
    prev_instr_was_rep_string := false
    last_decode_block_start := 0
    last_decode_modidx := 0
    last_decode_modoffs := 0
    last_block_summary := 0
    last_window := 0
    count_elided := 0
    count_duplicate_syscall := 0
    count_false_syscall := 0
    count_rseq_abort := 0
    count_rseq_side_exit := 0
    earliest_trace_timestamp := 2 ^ 64 - 1
    latest_trace_timestamp := 0
    final_trace_instr_count := 0
    kernel_instr_count := 0
    syscall_traces_converted := 0
    syscall_traces_conversion_failed := 0
    syscall_traces_non_fatal_decoding_error_count := 0
    syscall_traces_conversion_empty := 0
    syscall_traces_injected := 0
    cur_chunk_instr_count := 0
    cur_chunk_ref_count := 0
    chunk_count_ := 0
    last_timestamp_ := 0
    last_cpu_ := 0
    last_pc_fallthrough_if_syscall_ := 0
    encoding_emitted := bitset_hash_table_t.construct
    last_encoding_emitted := 0
    rseq_want_rollback_ := false
    rseq_ever_saw_entry_ := false
    rseq_buffering_enabled_ := false
    rseq_past_end_ := false
    rseq_commit_pc_ := 0
    rseq_start_pc_ := 0
    rseq_end_pc_ := 0
    to_inject_syscall_ := INJECT_NONE
    saw_first_func_id_marker_after_syscall_ := false
    rseq_buffer_ := []
    rseq_commit_idx_ := -1
    rseq_branch_targets_ := []
    rseq_decode_pcs_ := []  }

/-- The number of slots of the member `out_buf`. -/
def raw2trace_thread_data_t.out_buf_size (_tdata : raw2trace_thread_data_t) : Nat :=
  (List.finRange WRITE_BUFFER_SIZE).length

/-! ## The rseq buffer and the elided addresses -/

/-- The way a restartable sequence ends: it commits, or it aborts or takes a side exit at
an address. -/
inductive rseq_end_t where
  | commit
  | abort (addr : Nat)
  | side_exit (addr : Nat)
  deriving DecidableEq, Repr

/-- A record that `adjust_and_emit_rseq_buffer` writes: a buffered record as it is, the
synthesized kernel-interrupt-equivalent marker for an address, or the synthesized
fall-through record. -/
inductive rseq_output_t where
  | buffered (e : trace_entry_t)
  | interrupt_marker (addr : Nat)
  | fall_through
  deriving DecidableEq, Repr

/-- The entry is the instruction fetch of the instruction at `addr`. -/
def trace_entry_t.is_instr_at (e : trace_entry_t) (addr : Nat) : Bool :=
  decide (e.type = .instr) && decide (e.addr = addr)

/-- Modelled from the spec: the instruction boundary that an abort or side-exit address
implies, part of `adjust_and_emit_rseq_buffer`, which is declared in this header and
defined outside it.  The spec: "if A matches no buffered instruction exactly (recorded at
instruction granularity, not byte granularity), rollback proceeds up to the nearest
preceding instruction boundary."  The result is the greatest address of a buffered
instruction that is at most `addr`: `addr` itself when an instruction is buffered there,
`none` when every buffered instruction lies above `addr`. -/
def rollback_address : List trace_entry_t → Nat → Option Nat
  | [], _ => none
  | e :: es, addr =>
    if e.type = .instr ∧ e.addr ≤ addr then
      match rollback_address es addr with
      | some t => some (max e.addr t)
      | none => some e.addr
    else rollback_address es addr

/-- Modelled from the spec: the removal that `adjust_and_emit_rseq_buffer` makes through
`rollback_rseq_buffer`, both declared in this header and defined outside it.  The spec:
"records in the buffer corresponding to instructions at or after the rollback point
implied by A are discarded (never written)"; the comment on `rollback_rseq_buffer`: the
removal includes the "encoding or instr fetch" of the instruction.  Going back from the
end of the buffer, the records are dropped up to and including the instruction fetch at
`t` and then the encoding records in front of that fetch; the result is what stays. -/
def records_before_rollback (rseq_buffer_ : List trace_entry_t) (t : Nat) :
    List trace_entry_t :=
  (((rseq_buffer_.reverse.dropWhile (fun e => !e.is_instr_at t)).drop 1).dropWhile
    (fun e => decide (e.type = .encoding))).reverse

/-- Modelled from the spec: `adjust_and_emit_rseq_buffer`, declared in this header and
defined outside it; the result is what is written to the output, `none` when the address
implies no rollback point.  The spec: "On commit, the buffer is flushed verbatim to
output.  On abort or side-exit at address A: records in the buffer corresponding to
instructions at or after the rollback point implied by A are discarded (never written),
and a single kernel-interrupt-equivalent marker plus the correct fall-through record is
synthesized in their place." -/
def adjust_and_emit_rseq_buffer (rseq_buffer_ : List trace_entry_t) (how : rseq_end_t) :
    Option (List rseq_output_t) :=
  let rollback_at := fun (addr : Nat) =>
    match rollback_address rseq_buffer_ addr with
    | none => none
    | some t =>
      some ((records_before_rollback rseq_buffer_ t).map rseq_output_t.buffered ++
        [rseq_output_t.interrupt_marker addr, rseq_output_t.fall_through])
  match how with
  | .commit => some (rseq_buffer_.map rseq_output_t.buffered)
  | .abort addr => rollback_at addr
  | .side_exit addr => rollback_at addr

/-- The state that `append_memref` reads and writes: the map `reg_vals` from a base
register to its remembered address (`none`: nothing remembered) and the addresses not yet
read from the raw stream. -/
structure memref_state_t where
  reg_vals : Nat → Option Nat
  raw : List Nat

/-- Modelled from the spec: `append_memref`, declared in this header and defined outside
it; the result is the reconstructed address and the state after the operand.  The spec:
"for any operand flagged reuse remembered address, substitute the last-remembered
effective address for that base register (or the current program counter for
address-relative operands) instead of consuming a value from the raw stream; for any
operand flagged remember, store the reconstructed address keyed by base register before
moving to the next operand."  The decoder's view of an operand is given by `base_reg` and
`is_rel_addr`; `none` is an operand whose address can be had from neither place. -/
def append_memref (base_reg : opnd_t → Nat) (is_rel_addr : opnd_t → Bool)
    (instr : instr_summary_t) (memref : memref_summary_t) (st : memref_state_t) :
    Option (Nat × memref_state_t) :=
  let got : Option (Nat × List Nat) :=
    if memref.use_remembered_base then
      if is_rel_addr memref.opnd then some (instr.pc_, st.raw)
      else
        match st.reg_vals (base_reg memref.opnd) with
        | some a => some (a, st.raw)
        | none => none
    else
      match st.raw with
      | a :: rest => some (a, rest)
      | [] => none
  match got with
  | none => none
  | some (a, raw) =>
    some (a,
      { reg_vals :=
          if memref.remember_base then
            fun reg => if reg = base_reg memref.opnd then some a else st.reg_vals reg
          else st.reg_vals
        raw := raw })

/-- The memory operands of a block in order, each with its instruction, passed through
`append_memref`; the result is the state after the last of them. -/
def append_memrefs (base_reg : opnd_t → Nat) (is_rel_addr : opnd_t → Bool) :
    List (instr_summary_t × memref_summary_t) → memref_state_t → Option memref_state_t
  | [], st => some st
  | (instr, memref) :: rest, st =>
    match append_memref base_reg is_rel_addr instr memref st with
    | none => none
    | some (_, st1) => append_memrefs base_reg is_rel_addr rest st1

/-- The per-thread statistics that are accumulated by addition. -/
def raw2trace_thread_data_t.additive_counters (tdata : raw2trace_thread_data_t) : List Nat :=
  [tdata.count_elided, tdata.count_duplicate_syscall, tdata.count_false_syscall,
   tdata.count_rseq_abort, tdata.count_rseq_side_exit, tdata.final_trace_instr_count,
   tdata.kernel_instr_count, tdata.syscall_traces_converted,
   tdata.syscall_traces_conversion_failed,
   tdata.syscall_traces_non_fatal_decoding_error_count,
   tdata.syscall_traces_conversion_empty, tdata.syscall_traces_injected]

/-- The global statistics that are accumulated by addition. -/
def raw2trace_t.additive_counters (r : raw2trace_t) : List Nat :=
  [r.count_elided_, r.count_duplicate_syscall_, r.count_false_syscall_,
   r.count_rseq_abort_, r.count_rseq_side_exit_, r.final_trace_instr_count_,
   r.kernel_instr_count_, r.syscall_traces_converted_,
   r.syscall_traces_conversion_failed_,
   r.syscall_traces_non_fatal_decoding_error_count_,
   r.syscall_traces_conversion_empty_, r.syscall_traces_injected_]

/-! ## Lemmas on the embedding -/

theorem size_t_not_block_mask : size_t_not (BLOCK_SIZE - 1) = (2 ^ 51 - 1) <<< 13 := by
  decide

theorem block_mask_eq : BLOCK_SIZE - 1 = 2 ^ 13 - 1 := by decide

theorem convert_snd (pc : Nat) : (convert pc).2 = pc % 8192 := by
  unfold convert
  simp only [block_mask_eq, Nat.and_pow_two_sub_one_eq_mod]
  have : pc % 2 ^ 13 < 2 ^ 13 := Nat.mod_lt _ (by norm_num)
  omega

theorem convert_fst (pc : Nat) (h : pc < 2 ^ 64) : (convert pc).1 = pc / 8192 * 8192 := by
  unfold convert
  simp only [size_t_not_block_mask]
  have e : pc / 8192 * 8192 = (pc >>> 13) <<< 13 := by
    rw [Nat.shiftLeft_eq, Nat.shiftRight_eq_div_pow]
  rw [e]
  apply Nat.eq_of_testBit_eq
  intro i
  simp only [Nat.testBit_and, Nat.testBit_shiftLeft, Nat.testBit_two_pow_sub_one,
    Nat.testBit_shiftRight]
  by_cases h13 : 13 ≤ i
  · by_cases h64 : i < 64
    · have : i - 13 < 51 := by omega
      have e2 : 13 + (i - 13) = i := by omega
      simp [h13, this, e2]
    · have hlt : pc < 2 ^ i := lt_of_lt_of_le h (Nat.pow_le_pow_right (by norm_num) (by omega))
      have e2 : 13 + (i - 13) = i := by omega
      simp [Nat.testBit_lt_two_pow hlt, e2]
  · simp [h13]

theorem page_table_put_same (pt : Nat → Option bitset_t) (k : Nat) (bits : bitset_t)
    (h : pt k = some bits) : page_table_put pt k bits = pt := by
  funext j
  unfold page_table_put
  by_cases hj : j = k
  · simp [hj, h]
  · simp [hj]

theorem assign_same (bits : bitset_t) (i : Nat) (v : Bool) (h : bits i = v) :
    bits.assign i v = bits := by
  funext j
  unfold bitset_t.assign
  by_cases hj : j = i
  · simp [hj, h]
  · simp [hj]

theorem find_and_insert_tail_eq (s : bitset_hash_table_t) (pc : Nat) (bits : bitset_t)
    (h : s.page_table_ (convert pc).1 = some bits) :
    find_and_insert_tail s (convert pc).1 (convert pc).2 =
      some (!s.recorded pc, s.inserted pc) := by
  unfold find_and_insert_tail bitset_hash_table_t.recorded bitset_hash_table_t.inserted
  simp only [h, Option.getD_some]
  by_cases hb : bits (convert pc).2 = true
  · simp [hb, assign_same bits _ true hb, page_table_put_same _ _ _ h]
  · simp [hb]

theorem find_and_insert_eq (s : bitset_hash_table_t) (pc : Nat)
    (hv : s.last_block_valid = true) :
    s.find_and_insert pc = some (!s.recorded pc, s.inserted pc) := by
  unfold bitset_hash_table_t.last_block_valid at hv
  unfold bitset_hash_table_t.find_and_insert
  cases hl : s.last_block_ with
  | none => simp [hl] at hv
  | some k =>
    simp only [hl] at hv
    obtain ⟨b0, hb0⟩ := Option.isSome_iff_exists.mp hv
    by_cases hk : (convert pc).1 = k
    · subst hk
      simp [find_and_insert_tail_eq s pc b0 hb0]
    · cases hp : s.page_table_ (convert pc).1 with
      | none =>
        simp [hk, page_table_find, hp, bitset_hash_table_t.recorded,
          bitset_hash_table_t.inserted]
      | some bits =>
        simp [hk, page_table_find, hp, find_and_insert_tail_eq s pc bits hp]

theorem erase_eq (s : bitset_hash_table_t) (pc : Nat) (hv : s.last_block_valid = true) :
    s.erase pc = some (s.erased pc) := by
  unfold bitset_hash_table_t.last_block_valid at hv
  unfold bitset_hash_table_t.erase bitset_hash_table_t.erased
  cases hl : s.last_block_ with
  | none => simp [hl] at hv
  | some k =>
    simp only [hl] at hv
    obtain ⟨b0, hb0⟩ := Option.isSome_iff_exists.mp hv
    by_cases hk : k = (convert pc).1
    · subst hk
      simp [hb0]
    · cases hp : s.page_table_ (convert pc).1 with
      | none => simp [hk, page_table_find, hp]
      | some bits => simp [hk, page_table_find, hp]

theorem recorded_eq_getD (s : bitset_hash_table_t) (q : Nat) :
    s.recorded q = ((s.page_table_ (convert q).1).getD bitset_t.zero) (convert q).2 := by
  unfold bitset_hash_table_t.recorded
  cases s.page_table_ (convert q).1 <;> simp [bitset_t.zero]

theorem recorded_inserted (s : bitset_hash_table_t) (pc q : Nat) :
    (s.inserted pc).recorded q = if convert q = convert pc then true else s.recorded q := by
  rw [recorded_eq_getD, recorded_eq_getD]
  unfold bitset_hash_table_t.inserted page_table_put bitset_t.assign
  by_cases h1 : (convert q).1 = (convert pc).1
  · by_cases h2 : (convert q).2 = (convert pc).2
    · have : convert q = convert pc := Prod.ext h1 h2
      simp [this]
    · have : convert q ≠ convert pc := fun h => h2 (by rw [h])
      simp [this, h1, h2]
  · have : convert q ≠ convert pc := fun h => h1 (by rw [h])
    simp [this, h1]

theorem recorded_erased (s : bitset_hash_table_t) (pc q : Nat) :
    (s.erased pc).recorded q =
      if convert q = convert pc then false else s.recorded q := by
  unfold bitset_hash_table_t.erased
  cases hp : s.page_table_ (convert pc).1 with
  | none =>
    by_cases h : convert q = convert pc
    · simp [h, bitset_hash_table_t.recorded, hp]
    · simp [h, bitset_hash_table_t.recorded]
  | some bits =>
    simp only
    rw [recorded_eq_getD, recorded_eq_getD]
    unfold page_table_put bitset_t.assign
    by_cases h1 : (convert q).1 = (convert pc).1
    · by_cases h2 : (convert q).2 = (convert pc).2
      · have : convert q = convert pc := Prod.ext h1 h2
        simp [this]
      · have : convert q ≠ convert pc := fun h => h2 (by rw [h])
        simp [this, h1, h2, hp]
    · have : convert q ≠ convert pc := fun h => h1 (by rw [h])
      simp [this, h1]

theorem last_block_valid_inserted (s : bitset_hash_table_t) (pc : Nat) :
    (s.inserted pc).last_block_valid = true := by
  simp [bitset_hash_table_t.inserted, bitset_hash_table_t.last_block_valid, page_table_put]

theorem last_block_valid_erased (s : bitset_hash_table_t) (pc : Nat)
    (h : s.block_present pc = true) : (s.erased pc).last_block_valid = true := by
  unfold bitset_hash_table_t.block_present at h
  obtain ⟨b, hb⟩ := Option.isSome_iff_exists.mp h
  simp [bitset_hash_table_t.erased, hb, bitset_hash_table_t.last_block_valid, page_table_put]

theorem block_present_of_recorded (s : bitset_hash_table_t) (pc : Nat)
    (h : s.recorded pc = true) : s.block_present pc = true := by
  unfold bitset_hash_table_t.recorded at h
  unfold bitset_hash_table_t.block_present
  cases hp : s.page_table_ (convert pc).1 with
  | none => simp [hp] at h
  | some b => rfl

theorem convert_injective (pc q : Nat) (hpc : pc < 2 ^ 64) (hq : q < 2 ^ 64)
    (h : convert q = convert pc) : q = pc := by
  have h1 : (convert q).1 = (convert pc).1 := by rw [h]
  have h2 : (convert q).2 = (convert pc).2 := by rw [h]
  rw [convert_fst q hq, convert_fst pc hpc] at h1
  rw [convert_snd, convert_snd] at h2
  omega

theorem find_and_insert_cases (s : bitset_hash_table_t) (pc : Nat) :
    s.find_and_insert pc = none ∨
      s.find_and_insert pc = some (!s.recorded pc, s.inserted pc) := by
  unfold bitset_hash_table_t.find_and_insert
  cases hl : s.last_block_ with
  | none => simp
  | some k =>
    by_cases hk : (convert pc).1 = k
    · subst hk
      cases hp : s.page_table_ (convert pc).1 with
      | none => simp [find_and_insert_tail, hp]
      | some bits => simp [find_and_insert_tail_eq s pc bits hp]
    · cases hp : s.page_table_ (convert pc).1 with
      | none =>
        simp [hk, page_table_find, hp, bitset_hash_table_t.recorded,
          bitset_hash_table_t.inserted]
      | some bits =>
        simp [hk, page_table_find, hp, find_and_insert_tail_eq s pc bits hp]

theorem block_present_inserted (s : bitset_hash_table_t) (pc : Nat) :
    (s.inserted pc).block_present pc = true := by
  simp [bitset_hash_table_t.inserted, bitset_hash_table_t.block_present, page_table_put]

theorem last_block_valid_clear (s : bitset_hash_table_t) :
    s.clear.last_block_valid = true := by
  simp [bitset_hash_table_t.clear, bitset_hash_table_t.last_block_valid, page_table_put]

theorem last_block_valid_construct :
    bitset_hash_table_t.construct.last_block_valid = true := by
  simp [bitset_hash_table_t.construct, bitset_hash_table_t.last_block_valid, page_table_put]

theorem recorded_construct (pc : Nat) : bitset_hash_table_t.construct.recorded pc = false := by
  unfold bitset_hash_table_t.recorded bitset_hash_table_t.construct page_table_put
  by_cases h : (convert pc).1 = 0 <;> simp [h, bitset_t.zero]

/-- A call on a table with a valid cached iterator, an `erase` only of an address whose
block has an entry, returns and leaves the cached iterator valid. -/
theorem apply_call_valid (s : bitset_hash_table_t) (c : call_t)
    (hv : s.last_block_valid = true)
    (hc : ∀ pc, c = .erase pc → s.block_present pc = true) :
    ∃ s1, apply_call s c = some s1 ∧ s1.last_block_valid = true := by
  cases c with
  | find_and_insert pc =>
    exact ⟨s.inserted pc, by simp [apply_call, find_and_insert_eq s pc hv],
      last_block_valid_inserted s pc⟩
  | erase pc =>
    exact ⟨s.erased pc, by simp [apply_call, erase_eq s pc hv],
      last_block_valid_erased s pc (hc pc rfl)⟩
  | clear => exact ⟨s.clear, rfl, last_block_valid_clear s⟩

theorem run_calls_valid (cs : List call_t) (s : bitset_hash_table_t)
    (hv : s.last_block_valid = true) (hd : erases_present s cs = true) :
    ∃ s1, run_calls s cs = some s1 ∧ s1.last_block_valid = true := by
  induction cs generalizing s with
  | nil => exact ⟨s, rfl, hv⟩
  | cons c cs ih =>
    simp only [erases_present, Bool.and_eq_true] at hd
    obtain ⟨s1, h1, hv1⟩ := apply_call_valid s c hv (by
      intro pc hpc
      subst hpc
      simpa using hd.1)
    have hd2 := hd.2
    simp only [h1] at hd2
    obtain ⟨s2, h2, hv2⟩ := ih s1 hv1 hd2
    exact ⟨s2, by simp [run_calls, h1, h2], hv2⟩

theorem run_calls_append (a b : List call_t) (s : bitset_hash_table_t) :
    run_calls s (a ++ b) =
      match run_calls s a with
      | some s1 => run_calls s1 b
      | none => none := by
  induction a generalizing s with
  | nil => simp [run_calls]
  | cons c a ih =>
    simp only [List.cons_append, run_calls]
    cases apply_call s c with
    | none => rfl
    | some s1 => exact ih s1

theorem erases_present_append (a b : List call_t) (s s1 : bitset_hash_table_t)
    (hd : erases_present s (a ++ b) = true) (hr : run_calls s a = some s1) :
    erases_present s a = true ∧ erases_present s1 b = true := by
  induction a generalizing s with
  | nil =>
    simp only [run_calls, Option.some.injEq] at hr
    subst hr
    exact ⟨rfl, by simpa using hd⟩
  | cons c a ih =>
    simp only [List.cons_append, erases_present, Bool.and_eq_true] at hd ⊢
    simp only [run_calls] at hr
    cases hc : apply_call s c with
    | none => simp [hc] at hr
    | some s2 =>
      simp only [hc] at hr hd
      obtain ⟨h1, h2⟩ := ih s2 hd.2 hr
      exact ⟨⟨hd.1, h1⟩, h2⟩

theorem erases_present_left (a b : List call_t) (s : bitset_hash_table_t)
    (hd : erases_present s (a ++ b) = true) : erases_present s a = true := by
  induction a generalizing s with
  | nil => rfl
  | cons c a ih =>
    simp only [List.cons_append, erases_present, Bool.and_eq_true] at hd ⊢
    refine ⟨hd.1, ?_⟩
    cases hc : apply_call s c with
    | none => rfl
    | some s2 =>
      have h2 := hd.2
      simp only [hc] at h2 ⊢
      exact ih s2 h2

/-- A recorded address stays recorded through calls that neither erase it nor clear. -/
theorem recorded_preserved (mid : List call_t) (s : bitset_hash_table_t) (pc : Nat)
    (hpc : pc < 2 ^ 64) (hv : s.last_block_valid = true) (hr : s.recorded pc = true)
    (haddr : ∀ c ∈ mid, c.addr < 2 ^ 64)
    (hmid : ∀ c ∈ mid, c ≠ .erase pc ∧ c ≠ .clear)
    (hd : erases_present s mid = true) :
    ∃ s1, run_calls s mid = some s1 ∧ s1.last_block_valid = true ∧
      s1.recorded pc = true := by
  induction mid generalizing s with
  | nil => exact ⟨s, rfl, hv, hr⟩
  | cons c cs ih =>
    simp only [erases_present, Bool.and_eq_true] at hd
    have hc := hmid c (List.mem_cons_self _ _)
    have hca := haddr c (List.mem_cons_self _ _)
    have step : ∃ s1, apply_call s c = some s1 ∧ s1.last_block_valid = true ∧
        s1.recorded pc = true := by
      cases c with
      | find_and_insert q =>
        refine ⟨s.inserted q, by simp [apply_call, find_and_insert_eq s q hv],
          last_block_valid_inserted s q, ?_⟩
        rw [recorded_inserted]
        by_cases h : convert pc = convert q <;> simp [h, hr]
      | erase q =>
        have hq : s.block_present q = true := by simpa using hd.1
        refine ⟨s.erased q, by simp [apply_call, erase_eq s q hv],
          last_block_valid_erased s q hq, ?_⟩
        rw [recorded_erased]
        have hne : convert pc ≠ convert q := by
          intro h
          have : pc = q := convert_injective q pc hca hpc h
          exact hc.1 (by rw [this])
        simp [hne, hr]
      | clear => exact absurd rfl hc.2
    obtain ⟨s1, h1, hv1, hr1⟩ := step
    have hd2 := hd.2
    simp only [h1] at hd2
    obtain ⟨s2, h2, hv2, hr2⟩ := ih s1 hv1 hr1
      (fun c hc => haddr c (List.mem_cons_of_mem _ hc))
      (fun c hc => hmid c (List.mem_cons_of_mem _ hc)) hd2
    exact ⟨s2, by simp [run_calls, h1, h2], hv2, hr2⟩

/-! ### The emitted-encoding set -/

/-- What holds of `find_and_insert` when no `erase` meets an absent block: in every table
reached from the constructor by `find_and_insert`, `erase` and `clear` calls, each `erase`
made with an address whose block has an entry at that time, the calls return and
`find_and_insert(pc)` returns the negation of "`pc` is recorded": true exactly when `pc`
is not recorded, false exactly when it is; afterwards `pc` is recorded. -/
theorem find_and_insert_reports_membership (cs : List call_t) (pc : Nat)
    (hd : erases_present bitset_hash_table_t.construct cs = true) :
    ∃ s s1, run_calls bitset_hash_table_t.construct cs = some s ∧
      s.find_and_insert pc = some (!s.recorded pc, s1) ∧ s1.recorded pc = true := by
  obtain ⟨s, hs, hv⟩ := run_calls_valid cs _ last_block_valid_construct hd
  refine ⟨s, s.inserted pc, hs, find_and_insert_eq s pc hv, ?_⟩
  rw [recorded_inserted]
  simp

theorem find_and_insert_reports_membership_witness :
    erases_present bitset_hash_table_t.construct
        [.find_and_insert 8197, .find_and_insert 3, .erase 8197, .clear,
          .find_and_insert 16384] = true ∧
      ∃ s s1, run_calls bitset_hash_table_t.construct
          [.find_and_insert 8197, .find_and_insert 3, .erase 8197, .clear,
            .find_and_insert 16384] = some s ∧
        s.find_and_insert 16384 = some (!s.recorded 16384, s1) ∧
        s1.recorded 16384 = true :=
  ⟨by decide, find_and_insert_reports_membership _ 16384 (by decide)⟩

/-- What holds of repeated emission when no `erase` meets an absent block: on a fresh
table, each `erase` made with an address whose block has an entry at that time, a
`find_and_insert(pc)` that follows an earlier `find_and_insert(pc)` with no `erase(pc)`
and no `clear` between the two returns false: among such calls only the first can return
true. -/
theorem second_find_and_insert_returns_false (pre mid : List call_t) (pc : Nat)
    (hpc : pc < 2 ^ 64) (haddr : ∀ c ∈ mid, c.addr < 2 ^ 64)
    (hmid : ∀ c ∈ mid, c ≠ .erase pc ∧ c ≠ .clear)
    (hd : erases_present bitset_hash_table_t.construct
      (pre ++ .find_and_insert pc :: mid) = true) :
    ∃ s s1, run_calls bitset_hash_table_t.construct
        (pre ++ .find_and_insert pc :: mid) = some s ∧
      s.find_and_insert pc = some (false, s1) := by
  obtain ⟨s0, hs0, hv0⟩ := run_calls_valid pre _ last_block_valid_construct
    (erases_present_left pre _ _ hd)
  have hd1 := (erases_present_append pre _ _ s0 hd hs0).2
  have ha : apply_call s0 (.find_and_insert pc) = some (s0.inserted pc) := by
    simp [apply_call, find_and_insert_eq s0 pc hv0]
  simp only [erases_present, ha, Bool.true_and] at hd1
  obtain ⟨s, hs, hv, hr⟩ := recorded_preserved mid (s0.inserted pc) pc hpc
    (last_block_valid_inserted s0 pc) (by rw [recorded_inserted]; simp) haddr hmid hd1
  refine ⟨s, s.inserted pc, ?_, ?_⟩
  · rw [run_calls_append, hs0]
    simp [run_calls, ha, hs]
  · rw [find_and_insert_eq s pc hv, hr]
    rfl

theorem second_find_and_insert_returns_false_witness :
    ∃ s s1, run_calls bitset_hash_table_t.construct
        ([.find_and_insert 5, .clear] ++ .find_and_insert 8197 ::
          [.find_and_insert 8198, .erase 8198, .find_and_insert 3]) = some s ∧
      s.find_and_insert 8197 = some (false, s1) :=
  second_find_and_insert_returns_false [.find_and_insert 5, .clear]
    [.find_and_insert 8198, .erase 8198, .find_and_insert 3] 8197 (by decide)
    (by decide) (by decide) (by decide)

/-- What holds of `erase` on a table whose cached iterator is valid: if
`find_and_insert(pc)` returned true and `erase(pc)` is called next, the call returns, `pc`
is no longer recorded and the next `find_and_insert(pc)` returns true again; and on any
table whose cached iterator is valid, `erase(pc)` of an address whose block has an entry
returns and leaves `pc` not recorded, whether or not it was recorded before. -/
theorem erase_allows_reemission (s : bitset_hash_table_t) (pc : Nat) :
    (∀ s1, s.find_and_insert pc = some (true, s1) →
      ∃ s2 s3, s1.erase pc = some s2 ∧ s2.recorded pc = false ∧
        s2.find_and_insert pc = some (true, s3)) ∧
    (s.last_block_valid = true → s.block_present pc = true →
      ∃ s2, s.erase pc = some s2 ∧ s2.recorded pc = false) := by
  have hgen : ∀ t : bitset_hash_table_t, t.last_block_valid = true →
      t.block_present pc = true →
      t.erase pc = some (t.erased pc) ∧ (t.erased pc).recorded pc = false ∧
        (t.erased pc).last_block_valid = true := by
    intro t hv hp
    refine ⟨erase_eq t pc hv, ?_, last_block_valid_erased t pc hp⟩
    rw [recorded_erased]
    simp
  constructor
  · intro s1 h1
    have hs1 : s1 = s.inserted pc := by
      rcases find_and_insert_cases s pc with h | h
      · rw [h] at h1
        exact absurd h1 (by simp)
      · rw [h] at h1
        simp only [Option.some.injEq, Prod.mk.injEq] at h1
        exact h1.2.symm
    subst hs1
    obtain ⟨he, hr, hv⟩ := hgen (s.inserted pc) (last_block_valid_inserted s pc)
      (block_present_inserted s pc)
    refine ⟨_, ((s.inserted pc).erased pc).inserted pc, he, hr, ?_⟩
    rw [find_and_insert_eq _ pc hv, hr]
    rfl
  · intro hv hp
    obtain ⟨he, hr, _⟩ := hgen s hv hp
    exact ⟨_, he, hr⟩

theorem erase_allows_reemission_witness :
    (∃ s1, bitset_hash_table_t.construct.find_and_insert 8197 = some (true, s1) ∧
      ∃ s2 s3, s1.erase 8197 = some s2 ∧ s2.recorded 8197 = false ∧
        s2.find_and_insert 8197 = some (true, s3)) ∧
    ∃ s2, bitset_hash_table_t.construct.erase 5 = some s2 ∧ s2.recorded 5 = false :=
  ⟨⟨bitset_hash_table_t.construct.inserted 8197, rfl,
      (erase_allows_reemission bitset_hash_table_t.construct 8197).1 _ rfl⟩,
    (erase_allows_reemission bitset_hash_table_t.construct 5).2 (by decide) (by decide)⟩

/-- C4: a freshly constructed table records no address, and neither does a table right
after `clear()`: the first `find_and_insert(pc)` returns true for every `pc`, address 0
and the rest of the block keyed 0 included; and `clear()` yields the very table the
constructor builds, so every later sequence of calls behaves as on a fresh table. -/
theorem fresh_and_cleared_table_is_empty (s : bitset_hash_table_t) (pc : Nat) :
    bitset_hash_table_t.construct.recorded pc = false ∧
    (∃ s1, bitset_hash_table_t.construct.find_and_insert pc = some (true, s1)) ∧
    s.clear.recorded pc = false ∧
    (∃ s1, s.clear.find_and_insert pc = some (true, s1)) ∧
    s.clear = bitset_hash_table_t.construct ∧
    (∀ cs, run_calls s.clear cs = run_calls bitset_hash_table_t.construct cs) ∧
    (∀ cs q, (run_calls s.clear cs).bind (fun t => t.find_and_insert q) =
      (run_calls bitset_hash_table_t.construct cs).bind (fun t => t.find_and_insert q)) := by
  have hc : s.clear = bitset_hash_table_t.construct := rfl
  have hf : bitset_hash_table_t.construct.find_and_insert pc =
      some (true, bitset_hash_table_t.construct.inserted pc) := by
    rw [find_and_insert_eq _ pc last_block_valid_construct, recorded_construct]
    rfl
  refine ⟨recorded_construct pc, ⟨_, hf⟩, ?_, ?_, hc, ?_, ?_⟩
  · rw [hc]
    exact recorded_construct pc
  · rw [hc]
    exact ⟨_, hf⟩
  · intro cs
    rw [hc]
  · intro cs q
    rw [hc]

/-- C10: `convert` splits a 64-bit address without loss: the first component is
`pc & ~8191`, a multiple of 8192; the second is `pc & 8191`, below 8192 (so it fits an
`unsigned short` and indexes the 8192-bit bitset); their sum is `pc`; and two 64-bit
addresses with the same pair are equal. -/
theorem convert_lossless (pc : Nat) (hpc : pc < 2 ^ 64) :
    (convert pc).1 = pc &&& size_t_not 8191 ∧
    8192 ∣ (convert pc).1 ∧
    (convert pc).2 = pc &&& 8191 ∧
    (convert pc).2 < BLOCK_SIZE ∧
    BLOCK_SIZE = 8192 ∧
    (convert pc).2 < 2 ^ 16 ∧
    (convert pc).1 + (convert pc).2 = pc ∧
    ∀ q, q < 2 ^ 64 → convert q = convert pc → q = pc := by
  have h1 := convert_fst pc hpc
  have h2 := convert_snd pc
  have hb : BLOCK_SIZE = 8192 := by decide
  have hm : pc &&& 8191 = pc % 8192 := Nat.and_pow_two_sub_one_eq_mod pc 13
  refine ⟨rfl, ?_, ?_, ?_, hb, ?_, ?_, ?_⟩
  · rw [h1]
    exact Dvd.intro_left _ rfl
  · rw [h2, hm]
  · rw [h2, hb]
    omega
  · rw [h2]
    omega
  · rw [h1, h2]
    omega
  · intro q hq h
    exact convert_injective pc q hpc hq h

theorem convert_lossless_witness :
    (convert 18446744073709551615).1 = 18446744073709551615 &&& size_t_not 8191 ∧
    8192 ∣ (convert 18446744073709551615).1 ∧
    (convert 18446744073709551615).2 = 18446744073709551615 &&& 8191 ∧
    (convert 18446744073709551615).2 < BLOCK_SIZE ∧
    BLOCK_SIZE = 8192 ∧
    (convert 18446744073709551615).2 < 2 ^ 16 ∧
    (convert 18446744073709551615).1 + (convert 18446744073709551615).2 =
      18446744073709551615 ∧
    ∀ q, q < 2 ^ 64 → convert q = convert 18446744073709551615 →
      q = 18446744073709551615 :=
  convert_lossless 18446744073709551615 (by decide)

/-! ### The memory-operand flags of an instruction summary -/

theorem or_flags_set_at (l : List memref_summary_t) (idx : Nat) (x : memref_summary_t)
    (h : idx < l.length) :
    (l.set idx x)[idx]? = some x ∧ ∀ j, j ≠ idx → (l.set idx x)[j]? = l[j]? := by
  refine ⟨List.getElem?_set_self h, ?_⟩
  intro j hj
  exact List.getElem?_set_ne (Ne.symm hj)

theorem num_mem_dests_eq (s : instr_summary_t)
    (hsize : s.mem_srcs_and_dests_.length < 2 ^ 64)
    (hsrcs : s.num_mem_srcs_ ≤ s.mem_srcs_and_dests_.length) :
    s.num_mem_dests = s.mem_srcs_and_dests_.length - s.num_mem_srcs_ := by
  unfold instr_summary_t.num_mem_dests
  have h1 : s.num_mem_srcs_ % 2 ^ 64 = s.num_mem_srcs_ :=
    Nat.mod_eq_of_lt (lt_of_le_of_lt hsrcs hsize)
  rw [h1]
  omega

theorem set_mem_src_flags_eq (s : instr_summary_t) (pos : Nat) (u r : Bool)
    (h : pos < s.mem_srcs_and_dests_.length) :
    ∃ old s1, s.mem_srcs_and_dests_[pos]? = some old ∧
      s.set_mem_src_flags pos u r = some s1 ∧
      s1.mem_srcs_and_dests_ = s.mem_srcs_and_dests_.set pos (old.or_flags u r) ∧
      s1.num_mem_srcs_ = s.num_mem_srcs_ ∧
      s1 = { s with mem_srcs_and_dests_ := s1.mem_srcs_and_dests_ } := by
  have hold : s.mem_srcs_and_dests_[pos]? = some s.mem_srcs_and_dests_[pos] :=
    List.getElem?_eq_getElem h
  have hset : s.set_mem_src_flags pos u r = some
      { s with
        mem_srcs_and_dests_ :=
          s.mem_srcs_and_dests_.set pos (s.mem_srcs_and_dests_[pos].or_flags u r) } := by
    simp only [instr_summary_t.set_mem_src_flags, hold]
  exact ⟨_, _, hold, hset, rfl, rfl, rfl⟩

theorem set_mem_dest_flags_eq (s : instr_summary_t) (pos : Nat) (u r : Bool)
    (h : (s.num_mem_srcs_ + pos) % 2 ^ 64 < s.mem_srcs_and_dests_.length) :
    ∃ old s1, s.mem_srcs_and_dests_[(s.num_mem_srcs_ + pos) % 2 ^ 64]? = some old ∧
      s.set_mem_dest_flags pos u r = some s1 ∧
      s1.mem_srcs_and_dests_ =
        s.mem_srcs_and_dests_.set ((s.num_mem_srcs_ + pos) % 2 ^ 64) (old.or_flags u r) ∧
      s1.num_mem_srcs_ = s.num_mem_srcs_ ∧
      s1 = { s with mem_srcs_and_dests_ := s1.mem_srcs_and_dests_ } := by
  have hold : s.mem_srcs_and_dests_[(s.num_mem_srcs_ + pos) % 2 ^ 64]? =
      some s.mem_srcs_and_dests_[(s.num_mem_srcs_ + pos) % 2 ^ 64] :=
    List.getElem?_eq_getElem h
  have hset : s.set_mem_dest_flags pos u r = some
      { s with
        mem_srcs_and_dests_ :=
          s.mem_srcs_and_dests_.set ((s.num_mem_srcs_ + pos) % 2 ^ 64)
            (s.mem_srcs_and_dests_[(s.num_mem_srcs_ + pos) % 2 ^ 64].or_flags u r) } := by
    simp only [instr_summary_t.set_mem_dest_flags, hold]
  exact ⟨_, _, hold, hset, rfl, rfl, rfl⟩

/-- C5: the two flags of a memory operand are only OR-ed in.  For an in-range `pos`,
`set_mem_src_flags(pos, u, r)` returns and leaves at `pos` the old operand with
`use_remembered_base = old OR u` and `remember_base = old OR r`, and
`set_mem_dest_flags` does the same at `num_mem_srcs_ + pos`; so a flag that was true
before the call is true after it. -/
theorem set_mem_flags_or_in (s : instr_summary_t) (pos : Nat) (u r : Bool) :
    (pos < s.mem_srcs_and_dests_.length →
      ∃ old s1, s.mem_src_at pos = some old ∧
        s.set_mem_src_flags pos u r = some s1 ∧
        s1.mem_src_at pos =
          some { opnd := old.opnd
                 remember_base := old.remember_base || r
                 use_remembered_base := old.use_remembered_base || u } ∧
        (old.use_remembered_base = true →
          (s1.mem_src_at pos).map (fun m => m.use_remembered_base) = some true) ∧
        (old.remember_base = true →
          (s1.mem_src_at pos).map (fun m => m.remember_base) = some true)) ∧
    ((s.num_mem_srcs_ + pos) % 2 ^ 64 < s.mem_srcs_and_dests_.length →
      ∃ old s1, s.mem_dest_at pos = some old ∧
        s.set_mem_dest_flags pos u r = some s1 ∧
        s1.mem_dest_at pos =
          some { opnd := old.opnd
                 remember_base := old.remember_base || r
                 use_remembered_base := old.use_remembered_base || u } ∧
        (old.use_remembered_base = true →
          (s1.mem_dest_at pos).map (fun m => m.use_remembered_base) = some true) ∧
        (old.remember_base = true →
          (s1.mem_dest_at pos).map (fun m => m.remember_base) = some true)) := by
  constructor
  · intro h
    obtain ⟨old, s1, hold, hset, hmem, _, _⟩ := set_mem_src_flags_eq s pos u r h
    have hnew : s1.mem_src_at pos = some (old.or_flags u r) := by
      unfold instr_summary_t.mem_src_at
      rw [hmem]
      exact (or_flags_set_at _ pos _ h).1
    refine ⟨old, s1, hold, hset, hnew, ?_, ?_⟩
    · intro ht
      rw [hnew]
      simp [memref_summary_t.or_flags, ht]
    · intro ht
      rw [hnew]
      simp [memref_summary_t.or_flags, ht]
  · intro h
    obtain ⟨old, s1, hold, hset, hmem, hn, _⟩ := set_mem_dest_flags_eq s pos u r h
    have hnew : s1.mem_dest_at pos = some (old.or_flags u r) := by
      unfold instr_summary_t.mem_dest_at
      rw [hmem, hn]
      exact (or_flags_set_at _ _ _ h).1
    refine ⟨old, s1, hold, hset, hnew, ?_, ?_⟩
    · intro ht
      rw [hnew]
      simp [memref_summary_t.or_flags, ht]
    · intro ht
      rw [hnew]
      simp [memref_summary_t.or_flags, ht]

theorem set_mem_flags_or_in_witness :
    (∃ old s1,
      ({ mem_srcs_and_dests_ := [⟨7, true, false⟩, ⟨9, false, true⟩], num_mem_srcs_ := 1 } :
        instr_summary_t).mem_src_at 0 = some old ∧
      ({ mem_srcs_and_dests_ := [⟨7, true, false⟩, ⟨9, false, true⟩], num_mem_srcs_ := 1 } :
        instr_summary_t).set_mem_src_flags 0 true false = some s1 ∧
      s1.mem_src_at 0 =
        some { opnd := old.opnd
               remember_base := old.remember_base || false
               use_remembered_base := old.use_remembered_base || true } ∧
      (old.use_remembered_base = true →
        (s1.mem_src_at 0).map (fun m => m.use_remembered_base) = some true) ∧
      (old.remember_base = true →
        (s1.mem_src_at 0).map (fun m => m.remember_base) = some true)) ∧
    (∃ old s1,
      ({ mem_srcs_and_dests_ := [⟨7, true, false⟩, ⟨9, false, true⟩], num_mem_srcs_ := 1 } :
        instr_summary_t).mem_dest_at 0 = some old ∧
      ({ mem_srcs_and_dests_ := [⟨7, true, false⟩, ⟨9, false, true⟩], num_mem_srcs_ := 1 } :
        instr_summary_t).set_mem_dest_flags 0 true false = some s1 ∧
      s1.mem_dest_at 0 =
        some { opnd := old.opnd
               remember_base := old.remember_base || false
               use_remembered_base := old.use_remembered_base || true } ∧
      (old.use_remembered_base = true →
        (s1.mem_dest_at 0).map (fun m => m.use_remembered_base) = some true) ∧
      (old.remember_base = true →
        (s1.mem_dest_at 0).map (fun m => m.remember_base) = some true)) :=
  ⟨(set_mem_flags_or_in
      { mem_srcs_and_dests_ := [⟨7, true, false⟩, ⟨9, false, true⟩], num_mem_srcs_ := 1 }
      0 true false).1 (by decide),
    (set_mem_flags_or_in
      { mem_srcs_and_dests_ := [⟨7, true, false⟩, ⟨9, false, true⟩], num_mem_srcs_ := 1 }
      0 true false).2 (by decide)⟩

/-- C8, as the claim states it, fails: with no source operand and one destination
operand, `pos = 0` passes the assertion `pos < mem_srcs_and_dests_.size()` and
`set_mem_src_flags(0, true, true)` sets both flags of `mem_dest_at(0)`. -/
theorem set_mem_src_flags_reaches_dest :
    (0 : Nat) < ({ mem_srcs_and_dests_ := [⟨7, false, false⟩], num_mem_srcs_ := 0 } :
        instr_summary_t).mem_srcs_and_dests_.length ∧
    (0 : Nat) < ({ mem_srcs_and_dests_ := [⟨7, false, false⟩], num_mem_srcs_ := 0 } :
        instr_summary_t).num_mem_dests ∧
    ({ mem_srcs_and_dests_ := [⟨7, false, false⟩], num_mem_srcs_ := 0 } :
        instr_summary_t).mem_dest_at 0 = some ⟨7, false, false⟩ ∧
    (({ mem_srcs_and_dests_ := [⟨7, false, false⟩], num_mem_srcs_ := 0 } :
        instr_summary_t).set_mem_src_flags 0 true true).bind (fun s1 => s1.mem_dest_at 0) =
      some ⟨7, true, true⟩ := by
  decide

/-- C8, amended: for a summary whose `num_mem_srcs_` does not exceed the operand count
and a `pos` below `num_mem_srcs()`, `set_mem_src_flags(pos, u, r)` returns and leaves
every destination operand `mem_dest_at(i)`, `i < num_mem_dests()`, as it was, along
with `num_mem_srcs()` and `num_mem_dests()`. -/
theorem set_mem_src_flags_keeps_dests (s : instr_summary_t) (pos : Nat) (u r : Bool)
    (hsize : s.mem_srcs_and_dests_.length < 2 ^ 64)
    (hsrcs : s.num_mem_srcs_ ≤ s.mem_srcs_and_dests_.length)
    (hpos : pos < s.num_mem_srcs) :
    ∃ s1, s.set_mem_src_flags pos u r = some s1 ∧
      (∀ i, i < s.num_mem_dests → s1.mem_dest_at i = s.mem_dest_at i) ∧
      s1.num_mem_srcs = s.num_mem_srcs ∧ s1.num_mem_dests = s.num_mem_dests := by
  unfold instr_summary_t.num_mem_srcs at hpos
  have h : pos < s.mem_srcs_and_dests_.length := lt_of_lt_of_le hpos hsrcs
  obtain ⟨old, s1, _, hset, hmem, hn, _⟩ := set_mem_src_flags_eq s pos u r h
  refine ⟨s1, hset, ?_, hn, ?_⟩
  · intro i hi
    rw [num_mem_dests_eq s hsize hsrcs] at hi
    have hidx : (s.num_mem_srcs_ + i) % 2 ^ 64 = s.num_mem_srcs_ + i :=
      Nat.mod_eq_of_lt (by omega)
    simp only [instr_summary_t.mem_dest_at, hn, hidx, hmem]
    exact (or_flags_set_at _ pos _ h).2 _ (by omega)
  · simp [instr_summary_t.num_mem_dests, hmem, hn]

theorem set_mem_src_flags_keeps_dests_witness :
    ∃ s1, ({ mem_srcs_and_dests_ := [⟨7, false, false⟩, ⟨9, false, true⟩],
             num_mem_srcs_ := 1 } : instr_summary_t).set_mem_src_flags 0 true true =
        some s1 ∧
      (∀ i, i < ({ mem_srcs_and_dests_ := [⟨7, false, false⟩, ⟨9, false, true⟩],
                   num_mem_srcs_ := 1 } : instr_summary_t).num_mem_dests →
        s1.mem_dest_at i =
          ({ mem_srcs_and_dests_ := [⟨7, false, false⟩, ⟨9, false, true⟩],
             num_mem_srcs_ := 1 } : instr_summary_t).mem_dest_at i) ∧
      s1.num_mem_srcs =
        ({ mem_srcs_and_dests_ := [⟨7, false, false⟩, ⟨9, false, true⟩],
           num_mem_srcs_ := 1 } : instr_summary_t).num_mem_srcs ∧
      s1.num_mem_dests =
        ({ mem_srcs_and_dests_ := [⟨7, false, false⟩, ⟨9, false, true⟩],
           num_mem_srcs_ := 1 } : instr_summary_t).num_mem_dests :=
  set_mem_src_flags_keeps_dests
    { mem_srcs_and_dests_ := [⟨7, false, false⟩, ⟨9, false, true⟩], num_mem_srcs_ := 1 }
    0 true true (by decide) (by decide) (by decide)

/-- C9: for a summary with `num_mem_srcs_ <= mem_srcs_and_dests_.size()` and
`pos < num_mem_dests()`, `set_mem_dest_flags(pos, u, r)` returns; the operand
`mem_dest_at(pos)`, element `num_mem_srcs_ + pos` of the vector, gets the two flags
OR-ed in; every other element of the vector, so every source operand and every other
destination operand, is as before, and so are the operand count, `num_mem_srcs()`,
`num_mem_dests()` and the remaining fields. -/
theorem set_mem_dest_flags_frame (s : instr_summary_t) (pos : Nat) (u r : Bool)
    (hsize : s.mem_srcs_and_dests_.length < 2 ^ 64)
    (hsrcs : s.num_mem_srcs_ ≤ s.mem_srcs_and_dests_.length)
    (hpos : pos < s.num_mem_dests) :
    ∃ old s1, s.mem_dest_at pos = some old ∧
      s.mem_srcs_and_dests_[s.num_mem_srcs_ + pos]? = some old ∧
      s.set_mem_dest_flags pos u r = some s1 ∧
      s1.mem_dest_at pos = some (old.or_flags u r) ∧
      (∀ j, j ≠ s.num_mem_srcs_ + pos →
        s1.mem_srcs_and_dests_[j]? = s.mem_srcs_and_dests_[j]?) ∧
      (∀ i, i < s.num_mem_srcs → s1.mem_src_at i = s.mem_src_at i) ∧
      (∀ i, i < s.num_mem_dests → i ≠ pos → s1.mem_dest_at i = s.mem_dest_at i) ∧
      s1.mem_srcs_and_dests_.length = s.mem_srcs_and_dests_.length ∧
      s1.num_mem_srcs = s.num_mem_srcs ∧ s1.num_mem_dests = s.num_mem_dests ∧
      s1 = { s with mem_srcs_and_dests_ := s1.mem_srcs_and_dests_ } := by
  have hnd := num_mem_dests_eq s hsize hsrcs
  rw [hnd] at hpos
  have hidx : (s.num_mem_srcs_ + pos) % 2 ^ 64 = s.num_mem_srcs_ + pos :=
    Nat.mod_eq_of_lt (by omega)
  have h : s.num_mem_srcs_ + pos < s.mem_srcs_and_dests_.length := by omega
  obtain ⟨old, s1, hold, hset, hmem, hn, hs1⟩ :=
    set_mem_dest_flags_eq s pos u r (by rw [hidx]; exact h)
  rw [hidx] at hold hmem
  have hat := or_flags_set_at s.mem_srcs_and_dests_ (s.num_mem_srcs_ + pos)
    (old.or_flags u r) h
  rw [← hmem] at hat
  refine ⟨old, s1, ?_, hold, hset, ?_, hat.2, ?_, ?_, ?_, hn, ?_, hs1⟩
  · simp only [instr_summary_t.mem_dest_at, hidx, hold]
  · simp only [instr_summary_t.mem_dest_at, hn, hidx]
    exact hat.1
  · intro i hi
    unfold instr_summary_t.num_mem_srcs at hi
    exact hat.2 i (by omega)
  · intro i hi hne
    rw [hnd] at hi
    have hidx2 : (s.num_mem_srcs_ + i) % 2 ^ 64 = s.num_mem_srcs_ + i :=
      Nat.mod_eq_of_lt (by omega)
    simp only [instr_summary_t.mem_dest_at, hn, hidx2]
    exact hat.2 _ (by omega)
  · rw [hmem]
    simp
  · simp [instr_summary_t.num_mem_dests, hmem, hn]

theorem set_mem_dest_flags_frame_witness :
    ∃ old s1,
      ({ mem_srcs_and_dests_ := [⟨7, false, false⟩, ⟨9, false, true⟩, ⟨11, false, false⟩],
         num_mem_srcs_ := 1 } : instr_summary_t).mem_dest_at 1 = some old ∧
      ({ mem_srcs_and_dests_ := [⟨7, false, false⟩, ⟨9, false, true⟩, ⟨11, false, false⟩],
         num_mem_srcs_ := 1 } : instr_summary_t).set_mem_dest_flags 1 true false =
        some s1 ∧
      s1.mem_dest_at 1 = some (old.or_flags true false) ∧
      s1.mem_srcs_and_dests_.length = 3 :=
  match set_mem_dest_flags_frame
    { mem_srcs_and_dests_ := [⟨7, false, false⟩, ⟨9, false, true⟩, ⟨11, false, false⟩],
      num_mem_srcs_ := 1 } 1 true false (by decide) (by decide) (by decide) with
  | ⟨old, s1, h1, _, h3, h4, _, _, _, h8, _, _, _⟩ => ⟨old, s1, h1, h3, h4, h8⟩

/-! ### The decoded-block cache -/

theorem hash_key_eq_add (B modidx modoffs : Nat) (hB : B < 64)
    (hm : modidx < 2 ^ (64 - B)) (ho : modoffs < 2 ^ B) :
    hash_key B modidx modoffs = 2 ^ B * modidx + modoffs := by
  unfold hash_key
  have hlt : modidx * 2 ^ B < 2 ^ 64 := by
    have h64 : (2 : Nat) ^ 64 = 2 ^ (64 - B) * 2 ^ B := by
      rw [← Nat.pow_add]
      congr 1
      omega
    rw [h64]
    exact Nat.mul_lt_mul_of_pos_right hm (Nat.two_pow_pos B)
  rw [Nat.shiftLeft_eq, Nat.mod_eq_of_lt hlt, Nat.mul_comm modidx (2 ^ B)]
  exact (Nat.mul_add_lt_is_or ho modidx).symm

theorem hash_key_injective (B m1 o1 m2 o2 : Nat) (hB : B < 64)
    (hm1 : m1 < 2 ^ (64 - B)) (ho1 : o1 < 2 ^ B)
    (hm2 : m2 < 2 ^ (64 - B)) (ho2 : o2 < 2 ^ B)
    (h : hash_key B m1 o1 = hash_key B m2 o2) : m1 = m2 ∧ o1 = o2 := by
  rw [hash_key_eq_add B m1 o1 hB hm1 ho1, hash_key_eq_add B m2 o2 hB hm2 ho2] at h
  have hpos : 0 < 2 ^ B := Nat.two_pow_pos B
  have hd : (2 ^ B * m1 + o1) / 2 ^ B = (2 ^ B * m2 + o2) / 2 ^ B := by rw [h]
  rw [Nat.mul_add_div hpos, Nat.mul_add_div hpos, Nat.div_eq_of_lt ho1,
    Nat.div_eq_of_lt ho2] at hd
  have hmod : (2 ^ B * m1 + o1) % 2 ^ B = (2 ^ B * m2 + o2) % 2 ^ B := by rw [h]
  rw [Nat.mul_add_mod, Nat.mul_add_mod, Nat.mod_eq_of_lt ho1, Nat.mod_eq_of_lt ho2] at hmod
  exact ⟨by omega, hmod⟩

/-- For every width two distinct pairs of 64-bit values have the same key. -/
theorem hash_key_collides (B : Nat) :
    ∃ m1 o1 m2 o2 : Nat, m1 < 2 ^ 64 ∧ o1 < 2 ^ 64 ∧ m2 < 2 ^ 64 ∧ o2 < 2 ^ 64 ∧
      (m1, o1) ≠ (m2, o2) ∧ hash_key B m1 o1 = hash_key B m2 o2 := by
  by_cases hB : B < 64
  · have hlt : (2 : Nat) ^ B < 2 ^ 64 := Nat.pow_lt_pow_right (by norm_num) hB
    refine ⟨0, 2 ^ B, 1, 0, by norm_num, hlt, by norm_num, by norm_num,
      fun h => absurd (congrArg Prod.fst h) Nat.zero_ne_one, ?_⟩
    unfold hash_key
    rw [Nat.shiftLeft_eq, Nat.shiftLeft_eq, Nat.zero_mul, Nat.one_mul, Nat.mod_eq_of_lt hlt,
      Nat.zero_mod, Nat.zero_or, Nat.or_zero]
  · refine ⟨0, 0, 1, 0, by norm_num, by norm_num, by norm_num, by norm_num,
      fun h => absurd (congrArg Prod.fst h) (by decide), ?_⟩
    unfold hash_key
    have hdvd : (2 : Nat) ^ 64 ∣ 2 ^ B := Nat.pow_dvd_pow 2 (by omega)
    rw [Nat.shiftLeft_eq, Nat.shiftLeft_eq, Nat.zero_mul, Nat.one_mul,
      Nat.mod_eq_zero_of_dvd hdvd, Nat.zero_mod]

/-- C6, as the claim states it, fails: with `PC_MODOFFS_BITS = 33` the pairs
`(0, 2^33)` and `(1, 0)` have the same key, and no width makes `hash_key` injective on
all pairs of 64-bit values. -/
theorem hash_key_not_injective :
    (hash_key 33 0 8589934592 = hash_key 33 1 0 ∧ (0, 8589934592) ≠ (1, 0)) ∧
    ¬ ∃ B : Nat, ∀ m1 o1 m2 o2 : Nat,
      m1 < 2 ^ 64 → o1 < 2 ^ 64 → m2 < 2 ^ 64 → o2 < 2 ^ 64 →
      hash_key B m1 o1 = hash_key B m2 o2 → m1 = m2 ∧ o1 = o2 := by
  refine ⟨by decide, ?_⟩
  rintro ⟨B, h⟩
  obtain ⟨m1, o1, m2, o2, h1, h2, h3, h4, hne, he⟩ := hash_key_collides B
  have := h m1 o1 m2 o2 h1 h2 h3 h4 he
  exact hne (by rw [this.1, this.2])

/-- C6, amended: for a width `PC_MODOFFS_BITS < 64`, on pairs whose `modoffs` fits
`PC_MODOFFS_BITS` bits and whose `modidx` fits the remaining `64 - PC_MODOFFS_BITS`
bits, equal keys mean equal pairs. -/
theorem hash_key_injective_on_fields (B m1 o1 m2 o2 : Nat) (hB : B < 64)
    (hm1 : m1 < 2 ^ (64 - B)) (ho1 : o1 < 2 ^ B)
    (hm2 : m2 < 2 ^ (64 - B)) (ho2 : o2 < 2 ^ B)
    (h : hash_key B m1 o1 = hash_key B m2 o2) : m1 = m2 ∧ o1 = o2 :=
  hash_key_injective B m1 o1 m2 o2 hB hm1 ho1 hm2 ho2 h

theorem hash_key_injective_on_fields_witness :
    hash_key 33 5 4096 = hash_key 33 5 4096 ∧ (5 = 5 ∧ 4096 = 4096) :=
  ⟨rfl, hash_key_injective_on_fields 33 5 4096 5 4096 (by decide) (by decide) (by decide)
    (by decide) (by decide) rfl⟩

theorem lookup_table_some (B : Nat) (s : block_hashtable_t) (m o k b : Nat)
    (h : s.table k = some b) : (s.lookup B m o).2.table k = some b := by
  unfold block_hashtable_t.lookup
  cases hk : s.table (hash_key B m o) with
  | some b1 => exact h
  | none =>
    have hne : k ≠ hash_key B m o := by
      intro he
      rw [he, hk] at h
      exact absurd h (by simp)
    simp [hne, h]

theorem lookup_table_null (B : Nat) (s : block_hashtable_t) (m o k : Nat)
    (h : s.table k = none ∨ s.table k = some 0) :
    (s.lookup B m o).2.table k = none ∨ (s.lookup B m o).2.table k = some 0 := by
  unfold block_hashtable_t.lookup
  cases hk : s.table (hash_key B m o) with
  | some b1 => exact h
  | none =>
    by_cases he : k = hash_key B m o
    · right
      simp [he]
    · simpa [he] using h

theorem lookup_fst (B : Nat) (s : block_hashtable_t) (m o : Nat) :
    (s.lookup B m o).1 = (s.table (hash_key B m o)).getD 0 := by
  unfold block_hashtable_t.lookup
  cases s.table (hash_key B m o) <;> rfl

theorem adds_key_ne (B m o : Nat) (c : cache_call_t) (hB : B < 64)
    (hm : m < 2 ^ (64 - B)) (ho : o < 2 ^ B)
    (hf : c.in_fields B = true) (ha : c.adds m o = false) :
    ∀ m1 o1 b1, c = .add m1 o1 b1 → hash_key B m o ≠ hash_key B m1 o1 := by
  intro m1 o1 b1 hc
  subst hc
  simp only [cache_call_t.in_fields, Bool.and_eq_true, decide_eq_true_eq] at hf
  simp only [cache_call_t.adds, Bool.and_eq_false_iff, decide_eq_false_iff_not] at ha
  intro he
  have := hash_key_injective B m o m1 o1 hB hm ho hf.1 hf.2 he
  rcases ha with ha | ha
  · exact ha this.1.symm
  · exact ha this.2.symm

theorem run_cache_calls_keeps (B m o block : Nat) (hB : B < 64)
    (hm : m < 2 ^ (64 - B)) (ho : o < 2 ^ B) (cs : List cache_call_t)
    (s : block_hashtable_t) (hs : s.table (hash_key B m o) = some block)
    (hcs : ∀ c ∈ cs, c.in_fields B = true ∧ c.adds m o = false ∧ c.clears = false) :
    (run_cache_calls B s cs).table (hash_key B m o) = some block := by
  induction cs generalizing s with
  | nil => exact hs
  | cons c cs ih =>
    have hc := hcs c (List.mem_cons_self _ _)
    apply ih _ _ (fun c1 h1 => hcs c1 (List.mem_cons_of_mem _ h1))
    cases c with
    | lookup m1 o1 => exact lookup_table_some B s m1 o1 _ _ hs
    | add m1 o1 b1 =>
      have hne := adds_key_ne B m o _ hB hm ho hc.1 hc.2.1 m1 o1 b1 rfl
      simp [apply_cache_call, block_hashtable_t.add, hne, hs]
    | clear => simp [cache_call_t.clears] at hc

theorem run_cache_calls_null (B m o : Nat) (hB : B < 64)
    (hm : m < 2 ^ (64 - B)) (ho : o < 2 ^ B) (cs : List cache_call_t)
    (s : block_hashtable_t)
    (hs : s.table (hash_key B m o) = none ∨ s.table (hash_key B m o) = some 0)
    (hcs : ∀ c ∈ cs, c.in_fields B = true ∧ c.adds m o = false) :
    (run_cache_calls B s cs).table (hash_key B m o) = none ∨
      (run_cache_calls B s cs).table (hash_key B m o) = some 0 := by
  induction cs generalizing s with
  | nil => exact hs
  | cons c cs ih =>
    have hc := hcs c (List.mem_cons_self _ _)
    apply ih _ _ (fun c1 h1 => hcs c1 (List.mem_cons_of_mem _ h1))
    cases c with
    | lookup m1 o1 => exact lookup_table_null B s m1 o1 _ hs
    | add m1 o1 b1 =>
      have hne := adds_key_ne B m o _ hB hm ho hc.1 hc.2 m1 o1 b1 rfl
      simpa [apply_cache_call, block_hashtable_t.add, hne] using hs
    | clear => exact Or.inl rfl

/-- C7, as the claim states it, fails: with `PC_MODOFFS_BITS = 33`, after
`add(0, 2^33, 7)` on an empty cache the key `(1, 0)`, never added, looks up block 7 and
not null; and for no width does every never-added pair of 64-bit values look up null. -/
theorem lookup_returns_colliding_block :
    ((block_hashtable_t.construct.add 33 0 8589934592 7).lookup 33 1 0).1 = 7 ∧
    ¬ ∃ B : Nat, ∀ m o m1 o1 block : Nat,
      m < 2 ^ 64 → o < 2 ^ 64 → m1 < 2 ^ 64 → o1 < 2 ^ 64 → (m, o) ≠ (m1, o1) →
      ((block_hashtable_t.construct.add B m o block).lookup B m1 o1).1 = 0 := by
  refine ⟨by decide, ?_⟩
  rintro ⟨B, h⟩
  obtain ⟨m1, o1, m2, o2, h1, h2, h3, h4, hne, he⟩ := hash_key_collides B
  have := h m1 o1 m2 o2 1 h1 h2 h3 h4 hne
  rw [lookup_fst] at this
  simp [block_hashtable_t.add, he] at this

/-- C7, amended: for a width `PC_MODOFFS_BITS < 64` and keys that fit the two bit-fields
(`modoffs` in `PC_MODOFFS_BITS` bits, `modidx` in the remaining bits), on a cache that
holds no block for `(modidx, modoffs)`, after `add(modidx, modoffs, block)` a
`lookup(modidx, modoffs)` returns `block`, also after any later calls that are neither
`clear` nor an `add` of the same key; and from an empty cache, freshly constructed or
just cleared, a key that no later call added looks up null. -/
theorem block_cache_returns_stored_block (B modidx modoffs block : Nat)
    (s : block_hashtable_t) (later since : List cache_call_t) (hB : B < 64)
    (hm : modidx < 2 ^ (64 - B)) (ho : modoffs < 2 ^ B)
    (_hfree : (s.lookup B modidx modoffs).1 = 0)
    (hlater : ∀ c ∈ later, c.in_fields B = true ∧ c.adds modidx modoffs = false ∧
      c.clears = false)
    (hsince : ∀ c ∈ since, c.in_fields B = true ∧ c.adds modidx modoffs = false) :
    ((run_cache_calls B (s.add B modidx modoffs block) later).lookup B modidx modoffs).1 =
      block ∧
    ((run_cache_calls B block_hashtable_t.construct since).lookup B modidx modoffs).1 = 0 ∧
    ((run_cache_calls B s.clear since).lookup B modidx modoffs).1 = 0 := by
  have hnull : ∀ t : block_hashtable_t, t.table (hash_key B modidx modoffs) = none →
      ((run_cache_calls B t since).lookup B modidx modoffs).1 = 0 := by
    intro t ht
    rw [lookup_fst]
    rcases run_cache_calls_null B modidx modoffs hB hm ho since t (Or.inl ht) hsince
      with h | h <;> simp [h]
  refine ⟨?_, hnull _ rfl, hnull _ rfl⟩
  rw [lookup_fst, run_cache_calls_keeps B modidx modoffs block hB hm ho later _
    (by simp [block_hashtable_t.add]) hlater]
  rfl

theorem block_cache_returns_stored_block_witness :
    ((run_cache_calls 33 (block_hashtable_t.construct.add 33 1 0 7)
        [.lookup 0 5, .add 0 8589934591 9, .lookup 1 0]).lookup 33 1 0).1 = 7 ∧
    ((run_cache_calls 33 block_hashtable_t.construct
        [.add 0 5 9, .clear, .lookup 1 0]).lookup 33 1 0).1 = 0 ∧
    ((run_cache_calls 33 block_hashtable_t.construct.clear
        [.add 0 5 9, .clear, .lookup 1 0]).lookup 33 1 0).1 = 0 :=
  block_cache_returns_stored_block 33 1 0 7 block_hashtable_t.construct
    [.lookup 0 5, .add 0 8589934591 9, .lookup 1 0] [.add 0 5 9, .clear, .lookup 1 0]
    (by decide) (by decide) (by decide) (by decide) (by decide) (by decide)

/-! ### Start values, constants and the statistic enumeration -/

/-- C11: in a freshly constructed `raw2trace_thread_data_t` and in the global totals of
`raw2trace_t` every additive counter is 0, the earliest trace timestamp is the largest
`uint64` and the latest is 0; so for every `uint64` value `t`, adding `t` to a counter
gives `t`, the minimum of the earliest timestamp and `t` is `t`, and the maximum of the
latest timestamp and `t` is `t`. -/
theorem statistics_start_at_identities (t : Nat) (ht : t < 2 ^ 64) :
    (∀ c ∈ raw2trace_thread_data_t.construct.additive_counters,
      c = 0 ∧ (c + t) % 2 ^ 64 = t) ∧
    (∀ c ∈ raw2trace_t.construct.additive_counters, c = 0 ∧ (c + t) % 2 ^ 64 = t) ∧
    raw2trace_thread_data_t.construct.earliest_trace_timestamp = 2 ^ 64 - 1 ∧
    raw2trace_t.construct.earliest_trace_timestamp_ = 2 ^ 64 - 1 ∧
    raw2trace_thread_data_t.construct.latest_trace_timestamp = 0 ∧
    raw2trace_t.construct.latest_trace_timestamp_ = 0 ∧
    min raw2trace_thread_data_t.construct.earliest_trace_timestamp t = t ∧
    min raw2trace_t.construct.earliest_trace_timestamp_ t = t ∧
    max raw2trace_thread_data_t.construct.latest_trace_timestamp t = t ∧
    max raw2trace_t.construct.latest_trace_timestamp_ t = t := by
  have hz : ∀ c : Nat, c = 0 → c = 0 ∧ (c + t) % 2 ^ 64 = t := by
    intro c hc
    subst hc
    exact ⟨rfl, by rw [Nat.zero_add]; exact Nat.mod_eq_of_lt ht⟩
  have h1 : ∀ c ∈ raw2trace_thread_data_t.construct.additive_counters, c = 0 := by
    decide
  have h2 : ∀ c ∈ raw2trace_t.construct.additive_counters, c = 0 := by
    decide
  have he1 : raw2trace_thread_data_t.construct.earliest_trace_timestamp = 2 ^ 64 - 1 := rfl
  have he2 : raw2trace_t.construct.earliest_trace_timestamp_ = 2 ^ 64 - 1 := rfl
  have hl1 : raw2trace_thread_data_t.construct.latest_trace_timestamp = 0 := rfl
  have hl2 : raw2trace_t.construct.latest_trace_timestamp_ = 0 := rfl
  refine ⟨fun c hc => hz c (h1 c hc), fun c hc => hz c (h2 c hc), he1, he2, hl1, hl2,
    ?_, ?_, ?_, ?_⟩
  · rw [he1]
    exact Nat.min_eq_right (by omega)
  · rw [he2]
    exact Nat.min_eq_right (by omega)
  · rw [hl1]
    exact Nat.max_eq_right (Nat.zero_le t)
  · rw [hl2]
    exact Nat.max_eq_right (Nat.zero_le t)

theorem statistics_start_at_identities_witness :
    (∀ c ∈ raw2trace_thread_data_t.construct.additive_counters,
      c = 0 ∧ (c + 1700000000000000) % 2 ^ 64 = 1700000000000000) ∧
    (∀ c ∈ raw2trace_t.construct.additive_counters,
      c = 0 ∧ (c + 1700000000000000) % 2 ^ 64 = 1700000000000000) ∧
    raw2trace_thread_data_t.construct.earliest_trace_timestamp = 2 ^ 64 - 1 ∧
    raw2trace_t.construct.earliest_trace_timestamp_ = 2 ^ 64 - 1 ∧
    raw2trace_thread_data_t.construct.latest_trace_timestamp = 0 ∧
    raw2trace_t.construct.latest_trace_timestamp_ = 0 ∧
    min raw2trace_thread_data_t.construct.earliest_trace_timestamp 1700000000000000 =
      1700000000000000 ∧
    min raw2trace_t.construct.earliest_trace_timestamp_ 1700000000000000 =
      1700000000000000 ∧
    max raw2trace_thread_data_t.construct.latest_trace_timestamp 1700000000000000 =
      1700000000000000 ∧
    max raw2trace_t.construct.latest_trace_timestamp_ 1700000000000000 =
      1700000000000000 :=
  statistics_start_at_identities 1700000000000000 (by decide)

/-- C12: a freshly constructed `raw2trace_thread_data_t` has not seen a header, is
outside any restartable sequence (the four rseq flags are false, `rseq_buffer_`,
`rseq_branch_targets_` and `rseq_decode_pcs_` are empty, `rseq_commit_idx_` is -1), has no
syscall injection pending (`to_inject_syscall_ = INJECT_NONE = -1`), holds no delayed
branch (`delayed_branch` is empty and `delayed_branch_empty_` says so) and has both chunk
counters at 0. -/
theorem thread_data_starts_outside_rseq :
    raw2trace_thread_data_t.construct.saw_header = false ∧
    raw2trace_thread_data_t.construct.rseq_buffering_enabled_ = false ∧
    raw2trace_thread_data_t.construct.rseq_want_rollback_ = false ∧
    raw2trace_thread_data_t.construct.rseq_ever_saw_entry_ = false ∧
    raw2trace_thread_data_t.construct.rseq_past_end_ = false ∧
    raw2trace_thread_data_t.construct.rseq_buffer_ = [] ∧
    raw2trace_thread_data_t.construct.rseq_branch_targets_ = [] ∧
    raw2trace_thread_data_t.construct.rseq_decode_pcs_ = [] ∧
    raw2trace_thread_data_t.construct.rseq_commit_idx_ = -1 ∧
    raw2trace_thread_data_t.construct.to_inject_syscall_ = INJECT_NONE ∧
    INJECT_NONE = -1 ∧
    raw2trace_thread_data_t.construct.delayed_branch = [] ∧
    raw2trace_thread_data_t.construct.delayed_branch_empty_ = true ∧
    raw2trace_thread_data_t.construct.delayed_branch_empty_ =
      raw2trace_thread_data_t.construct.delayed_branch.isEmpty ∧
    raw2trace_thread_data_t.construct.cur_chunk_instr_count = 0 ∧
    raw2trace_thread_data_t.construct.chunk_count_ = 0 := by
  refine ⟨rfl, rfl, rfl, rfl, rfl, rfl, rfl, rfl, rfl, rfl, rfl, rfl, rfl, rfl, rfl, rfl⟩

/-- C13: the default chunk threshold `10 * 1000 * 1000` evaluates in `int` without
overflow to 10000000, and the conversion to `uint64_t` leaves 10000000. -/
theorem default_chunk_is_ten_million :
    int_mul 10 1000 = some 10000 ∧
    default_chunk_instr_count_expr = some 10000000 ∧
    (10000000 : Int) ≤ INT_MAX ∧
    default_chunk_instr_count = some 10000000 := by
  decide

/-- C17, as the claim states it, fails: `RAW2TRACE_STAT_SYSCALL_TRACES_CONVERSION_EMPTY`
is a named statistic, with a value below `RAW2TRACE_STAT_MAX`, that is not among the
thirteen counters of the specification's list, while fourteen statistics are named. -/
theorem conversion_empty_is_not_listed :
    raw2trace_statistic_t.RAW2TRACE_STAT_SYSCALL_TRACES_CONVERSION_EMPTY.named = true ∧
    raw2trace_statistic_t.RAW2TRACE_STAT_SYSCALL_TRACES_CONVERSION_EMPTY.value <
      raw2trace_statistic_t.RAW2TRACE_STAT_MAX.value ∧
    raw2trace_statistic_t.RAW2TRACE_STAT_SYSCALL_TRACES_CONVERSION_EMPTY ∉
      spec_listed_statistics ∧
    spec_listed_statistics.length = 13 ∧
    (raw2trace_statistic_t.enumerators.filter raw2trace_statistic_t.named).length = 14 := by
  decide

/-- C17, amended: the enumerators are numbered contiguously from 0
(`RAW2TRACE_STAT_COUNT_ELIDED`) with `RAW2TRACE_STAT_MAX` last; every named statistic has
a value below `RAW2TRACE_STAT_MAX`, distinct enumerators have distinct values, every value
below `RAW2TRACE_STAT_MAX` names exactly one statistic; and the named statistics are the
counters the specification lists together with the count of empty syscall traces,
`RAW2TRACE_STAT_SYSCALL_TRACES_CONVERSION_EMPTY`. -/
theorem statistic_enumeration_is_closed :
    raw2trace_statistic_t.RAW2TRACE_STAT_COUNT_ELIDED.value = 0 ∧
    raw2trace_statistic_t.RAW2TRACE_STAT_MAX.value = 14 ∧
    raw2trace_statistic_t.enumerators.length = 15 ∧
    (∀ stat : raw2trace_statistic_t, stat ∈ raw2trace_statistic_t.enumerators ∧
      raw2trace_statistic_t.enumerators[stat.value]? = some stat ∧
      stat.value ≤ raw2trace_statistic_t.RAW2TRACE_STAT_MAX.value) ∧
    (∀ stat : raw2trace_statistic_t, stat.named = true →
      stat.value < raw2trace_statistic_t.RAW2TRACE_STAT_MAX.value) ∧
    (∀ a b : raw2trace_statistic_t, a.value = b.value → a = b) ∧
    (∀ n, n < raw2trace_statistic_t.RAW2TRACE_STAT_MAX.value →
      ∃ stat : raw2trace_statistic_t, stat.named = true ∧ stat.value = n ∧
        ∀ other : raw2trace_statistic_t, other.value = n → other = stat) ∧
    (∀ stat : raw2trace_statistic_t, stat.named = true ↔
      (stat ∈ spec_listed_statistics ∨
        stat = .RAW2TRACE_STAT_SYSCALL_TRACES_CONVERSION_EMPTY)) := by
  have hinj : ∀ a b : raw2trace_statistic_t, a.value = b.value → a = b := by
    intro a b
    cases a <;> cases b <;> decide
  refine ⟨by decide, by decide, by decide, ?_, ?_, hinj, ?_, ?_⟩
  · intro stat
    cases stat <;> decide
  · intro stat
    cases stat <;> decide
  · intro n hn
    have h14 : raw2trace_statistic_t.RAW2TRACE_STAT_MAX.value = 14 := by decide
    rw [h14] at hn
    have hex : ∃ stat : raw2trace_statistic_t, stat.named = true ∧ stat.value = n := by
      interval_cases n
      · exact ⟨.RAW2TRACE_STAT_COUNT_ELIDED, by decide⟩
      · exact ⟨.RAW2TRACE_STAT_DUPLICATE_SYSCALL, by decide⟩
      · exact ⟨.RAW2TRACE_STAT_RSEQ_ABORT, by decide⟩
      · exact ⟨.RAW2TRACE_STAT_RSEQ_SIDE_EXIT, by decide⟩
      · exact ⟨.RAW2TRACE_STAT_FALSE_SYSCALL, by decide⟩
      · exact ⟨.RAW2TRACE_STAT_EARLIEST_TRACE_TIMESTAMP, by decide⟩
      · exact ⟨.RAW2TRACE_STAT_LATEST_TRACE_TIMESTAMP, by decide⟩
      · exact ⟨.RAW2TRACE_STAT_FINAL_TRACE_INSTRUCTION_COUNT, by decide⟩
      · exact ⟨.RAW2TRACE_STAT_KERNEL_INSTR_COUNT, by decide⟩
      · exact ⟨.RAW2TRACE_STAT_SYSCALL_TRACES_CONVERTED, by decide⟩
      · exact ⟨.RAW2TRACE_STAT_SYSCALL_TRACES_CONVERSION_FAILED, by decide⟩
      · exact ⟨.RAW2TRACE_STAT_SYSCALL_TRACES_NON_FATAL_DECODING_ERROR_COUNT, by decide⟩
      · exact ⟨.RAW2TRACE_STAT_SYSCALL_TRACES_CONVERSION_EMPTY, by decide⟩
      · exact ⟨.RAW2TRACE_STAT_SYSCALL_TRACES_INJECTED, by decide⟩
    obtain ⟨stat, hs1, hs2⟩ := hex
    exact ⟨stat, hs1, hs2, fun other ho => hinj other stat (by rw [ho, hs2])⟩
  · intro stat
    cases stat <;> decide

/-- C18: `WRITE_BUFFER_SIZE` is 260; an `ld4b` at a vector length of 512 bits has
`(512 / 8) * 4 = 256` memref entries, and one instruction entry with 256 memref entries
fits `WRITE_BUFFER_SIZE`; `out_buf` has `WRITE_BUFFER_SIZE` slots. -/
theorem write_buffer_holds_ld4b (tdata : raw2trace_thread_data_t) :
    WRITE_BUFFER_SIZE = 260 ∧
    ld4b_memref_entries 512 = 256 ∧
    1 + ld4b_memref_entries 512 ≤ WRITE_BUFFER_SIZE ∧
    tdata.out_buf_size = WRITE_BUFFER_SIZE := by
  refine ⟨rfl, by decide, by decide, ?_⟩
  unfold raw2trace_thread_data_t.out_buf_size
  exact List.length_finRange _

/-- C19: `next_pc()` is `pc() + length()` in 64-bit address arithmetic, and equals the
sum itself whenever the instruction ends within the address space; `length()` is a byte,
at most 255; a default-constructed summary has `pc() = 0`, `length() = 0` and
`next_pc() = pc()`. -/
theorem next_pc_is_pc_plus_length (s : instr_summary_t) (hlen : s.length_ < 2 ^ 8) :
    s.next_pc = (s.pc + s.length) % 2 ^ 64 ∧
    (s.pc + s.length < 2 ^ 64 → s.next_pc = s.pc + s.length) ∧
    s.length ≤ 255 ∧
    instr_summary_t.construct.pc = 0 ∧
    instr_summary_t.construct.length = 0 ∧
    instr_summary_t.construct.next_pc = instr_summary_t.construct.pc := by
  refine ⟨rfl, ?_, ?_, rfl, rfl, rfl⟩
  · intro h
    exact Nat.mod_eq_of_lt h
  · unfold instr_summary_t.length
    omega

theorem next_pc_is_pc_plus_length_witness :
    ({ pc_ := 4198400, length_ := 15 } : instr_summary_t).next_pc = 4198415 :=
  ((next_pc_is_pc_plus_length { pc_ := 4198400, length_ := 15 } (by decide)).2.1
    (by decide)).trans (by decide)

/-- C20: the code at the failing input.  On a fresh table `erase(8192)` finds no entry
for the block keyed 8192 and returns with `last_block_` at `page_table_.end()`; the
following `find_and_insert(0)` and `erase(0)` dereference that iterator. -/
theorem erase_of_absent_block_leaves_end_iterator :
    (bitset_hash_table_t.construct.erase 8192).map (fun s => s.last_block_) = some none ∧
    (bitset_hash_table_t.construct.erase 8192).map (fun s => s.last_block_valid) =
      some false ∧
    ((bitset_hash_table_t.construct.erase 8192).bind
      (fun s => s.find_and_insert 0)).isNone = true ∧
    ((bitset_hash_table_t.construct.erase 8192).bind (fun s => s.erase 0)).isNone = true ∧
    (run_calls bitset_hash_table_t.construct [.erase 8192, .find_and_insert 0]).isNone =
      true := by
  decide

/-! ### The rseq buffer -/

theorem takeWhile_all (p : trace_entry_t → Bool) (l : List trace_entry_t) :
    ∀ e ∈ l.takeWhile p, p e = true := by
  induction l with
  | nil => simp
  | cons a l ih =>
    intro e he
    by_cases ha : p a = true
    · simp only [List.takeWhile_cons, ha, if_true, List.mem_cons] at he
      rcases he with he | he
      · rw [he]
        exact ha
      · exact ih e he
    · simp [List.takeWhile_cons, ha] at he

theorem dropWhile_head (p : trace_entry_t → Bool) (l t : List trace_entry_t)
    (e : trace_entry_t) (h : l.dropWhile p = e :: t) : p e = false := by
  induction l with
  | nil => simp at h
  | cons a l ih =>
    by_cases ha : p a = true
    · simp only [List.dropWhile_cons, ha, if_true] at h
      exact ih h
    · simp only [List.dropWhile_cons, ha, Bool.false_eq_true, if_false, List.cons.injEq] at h
      rw [← h.1]
      simpa using ha

theorem dropWhile_nil_all (p : trace_entry_t → Bool) (l : List trace_entry_t)
    (h : l.dropWhile p = []) : ∀ e ∈ l, p e = true := by
  induction l with
  | nil => simp
  | cons a l ih =>
    by_cases ha : p a = true
    · simp only [List.dropWhile_cons, ha, if_true] at h
      intro e he
      rcases List.mem_cons.mp he with he | he
      · rw [he]
        exact ha
      · exact ih h e he
    · simp [List.dropWhile_cons, ha] at h

theorem rollback_address_spec (buf : List trace_entry_t) (addr t : Nat)
    (h : rollback_address buf addr = some t) :
    (∃ e ∈ buf, e.type = .instr ∧ e.addr = t) ∧ t ≤ addr ∧
      ∀ e ∈ buf, e.type = .instr → e.addr ≤ addr → e.addr ≤ t := by
  induction buf generalizing t with
  | nil => simp [rollback_address] at h
  | cons a es ih =>
    simp only [rollback_address] at h
    by_cases ha : a.type = .instr ∧ a.addr ≤ addr
    · simp only [ha, and_self, if_true] at h
      cases hr : rollback_address es addr with
      | none =>
        simp only [hr, Option.some.injEq] at h
        subst h
        refine ⟨⟨a, List.mem_cons_self _ _, ha.1, rfl⟩, ha.2, ?_⟩
        intro e he h1 h2
        rcases List.mem_cons.mp he with he | he
        · rw [he]
        · exfalso
          have hnone : ∀ (l : List trace_entry_t), rollback_address l addr = none →
              ∀ x ∈ l, ¬ (x.type = .instr ∧ x.addr ≤ addr) := by
            intro l
            induction l with
            | nil => simp
            | cons b l ihl =>
              intro hl x hx
              simp only [rollback_address] at hl
              by_cases hb : b.type = .instr ∧ b.addr ≤ addr
              · simp only [hb, and_self, if_true] at hl
                cases hl2 : rollback_address l addr <;> simp [hl2] at hl
              · simp only [hb, if_false] at hl
                rcases List.mem_cons.mp hx with hx | hx
                · rw [hx]
                  exact hb
                · exact ihl hl x hx
          exact hnone es hr e he ⟨h1, h2⟩
      | some t0 =>
        simp only [hr, Option.some.injEq] at h
        obtain ⟨⟨e0, he0, h01, h02⟩, hle, hmax⟩ := ih t0 hr
        subst h
        refine ⟨?_, Nat.max_le.mpr ⟨ha.2, hle⟩, ?_⟩
        · by_cases hc : a.addr ≤ t0
          · exact ⟨e0, List.mem_cons_of_mem _ he0, h01, by rw [h02, Nat.max_eq_right hc]⟩
          · exact ⟨a, List.mem_cons_self _ _, ha.1,
              by rw [Nat.max_eq_left (Nat.le_of_lt (Nat.lt_of_not_le hc))]⟩
        · intro e he h1 h2
          rcases List.mem_cons.mp he with he | he
          · rw [he]
            exact Nat.le_max_left _ _
          · exact Nat.le_trans (hmax e he h1 h2) (Nat.le_max_right _ _)
    · simp only [ha, if_false] at h
      obtain ⟨⟨e0, he0, h01, h02⟩, hle, hmax⟩ := ih t h
      refine ⟨⟨e0, List.mem_cons_of_mem _ he0, h01, h02⟩, hle, ?_⟩
      intro e he h1 h2
      rcases List.mem_cons.mp he with he | he
      · rw [he] at h1 h2
        exact absurd ⟨h1, h2⟩ ha
      · exact hmax e he h1 h2

theorem rollback_address_some (buf : List trace_entry_t) (addr : Nat)
    (h : ∃ e ∈ buf, e.type = .instr ∧ e.addr ≤ addr) :
    ∃ t, rollback_address buf addr = some t := by
  induction buf with
  | nil =>
    obtain ⟨e, he, _⟩ := h
    simp at he
  | cons a es ih =>
    simp only [rollback_address]
    by_cases ha : a.type = .instr ∧ a.addr ≤ addr
    · simp only [ha, and_self, if_true]
      cases rollback_address es addr with
      | none => exact ⟨_, rfl⟩
      | some t0 => exact ⟨_, rfl⟩
    · simp only [ha, if_false]
      apply ih
      obtain ⟨e, he, h1⟩ := h
      rcases List.mem_cons.mp he with he | he
      · rw [he] at h1
        exact absurd h1 ha
      · exact ⟨e, he, h1⟩

theorem records_before_rollback_spec (buf : List trace_entry_t) (t : Nat)
    (h : ∃ e ∈ buf, e.type = .instr ∧ e.addr = t) :
    ∃ encodings later,
      buf = records_before_rollback buf t ++ encodings ++ ⟨.instr, t⟩ :: later ∧
      (∀ e ∈ encodings, e.type = .encoding) ∧
      (∀ e, (records_before_rollback buf t).getLast? = some e → e.type ≠ .encoding) ∧
      ∀ e ∈ later, ¬ (e.type = .instr ∧ e.addr = t) := by
  have hsplit1 := List.takeWhile_append_dropWhile (fun e => !e.is_instr_at t) buf.reverse
  cases hd1 : buf.reverse.dropWhile (fun e => !e.is_instr_at t) with
  | nil =>
    exfalso
    obtain ⟨e, he, h1, h2⟩ := h
    have := dropWhile_nil_all _ _ hd1 e (List.mem_reverse.mpr he)
    simp [trace_entry_t.is_instr_at, h1, h2] at this
  | cons e0 r2 =>
    have he0 := dropWhile_head _ _ _ _ hd1
    have he0eq : e0 = ⟨.instr, t⟩ := by
      simp only [trace_entry_t.is_instr_at, Bool.not_eq_false_eq_eq_true, Bool.and_eq_true,
        decide_eq_true_eq] at he0
      cases e0 with
      | mk ty ad =>
        simp only at he0
        rw [he0.1, he0.2]
    have hsplit2 := List.takeWhile_append_dropWhile (fun e => decide (e.type = .encoding)) r2
    have hkeep : records_before_rollback buf t =
        (r2.dropWhile (fun e => decide (e.type = .encoding))).reverse := by
      simp only [records_before_rollback, hd1, List.drop_succ_cons, List.drop_zero]
    refine ⟨(r2.takeWhile (fun e => decide (e.type = .encoding))).reverse,
      (buf.reverse.takeWhile (fun e => !e.is_instr_at t)).reverse, ?_, ?_, ?_, ?_⟩
    · rw [hkeep, ← he0eq]
      have hb : buf = (buf.reverse).reverse := (List.reverse_reverse buf).symm
      conv_lhs => rw [hb, ← hsplit1, hd1, ← hsplit2]
      simp only [List.reverse_append, List.reverse_cons, List.append_assoc,
        List.singleton_append]
    · intro e he
      have := takeWhile_all _ _ e (List.mem_reverse.mp he)
      simpa using this
    · intro e he
      rw [hkeep, List.getLast?_reverse] at he
      cases hd2 : r2.dropWhile (fun e => decide (e.type = .encoding)) with
      | nil => simp [hd2] at he
      | cons e1 r3 =>
        simp only [hd2, List.head?_cons, Option.some.injEq] at he
        subst he
        have := dropWhile_head _ _ _ _ hd2
        simpa using this
    · intro e he hc
      have := takeWhile_all _ _ e (List.mem_reverse.mp he)
      simp [trace_entry_t.is_instr_at, hc.1, hc.2] at this

/-- C14: on commit the output is exactly the buffered records `rseq_buffer_`, in order.
On an abort or a side exit at an address with a buffered instruction at or below it, the
buffer splits into the records kept, the encoding records of the rollback instruction,
its instruction fetch and all later records; the output is the records kept followed by
the interrupt marker and the fall-through record, so no record of the rollback instruction
or of a later one is written.  The rollback instruction is at the address itself when an
instruction is buffered there and otherwise at the nearest buffered instruction address
below it; the records kept do not end in an encoding record, and the rollback
instruction does not occur again among the later records. -/
theorem rseq_buffer_commit_and_rollback (rseq_buffer_ : List trace_entry_t) (addr : Nat)
    (hinstr : ∃ e ∈ rseq_buffer_, e.type = .instr ∧ e.addr ≤ addr) :
    adjust_and_emit_rseq_buffer rseq_buffer_ .commit =
      some (rseq_buffer_.map rseq_output_t.buffered) ∧
    adjust_and_emit_rseq_buffer rseq_buffer_ (.side_exit addr) =
      adjust_and_emit_rseq_buffer rseq_buffer_ (.abort addr) ∧
    ∃ kept encodings later t,
      rseq_buffer_ = kept ++ encodings ++ ⟨.instr, t⟩ :: later ∧
      adjust_and_emit_rseq_buffer rseq_buffer_ (.abort addr) =
        some (kept.map rseq_output_t.buffered ++
          [rseq_output_t.interrupt_marker addr, rseq_output_t.fall_through]) ∧
      t ≤ addr ∧
      (∀ e ∈ rseq_buffer_, e.type = .instr → e.addr ≤ addr → e.addr ≤ t) ∧
      ((∃ e ∈ rseq_buffer_, e.type = .instr ∧ e.addr = addr) → t = addr) ∧
      (∀ e ∈ encodings, e.type = .encoding) ∧
      (∀ e, kept.getLast? = some e → e.type ≠ .encoding) ∧
      ∀ e ∈ later, ¬ (e.type = .instr ∧ e.addr = t) := by
  obtain ⟨t, ht⟩ := rollback_address_some rseq_buffer_ addr hinstr
  obtain ⟨hmem, hle, hmax⟩ := rollback_address_spec rseq_buffer_ addr t ht
  obtain ⟨encodings, later, hsplit, henc, hlast, hlater⟩ :=
    records_before_rollback_spec rseq_buffer_ t hmem
  refine ⟨rfl, rfl, records_before_rollback rseq_buffer_ t, encodings, later, t, hsplit, ?_,
    hle, hmax, ?_, henc, hlast, hlater⟩
  · simp only [adjust_and_emit_rseq_buffer, ht]
  · rintro ⟨e, he, h1, h2⟩
    have := hmax e he h1 (by rw [h2])
    omega

theorem rseq_buffer_commit_and_rollback_witness :
    (adjust_and_emit_rseq_buffer
        [⟨.marker, 0⟩, ⟨.encoding, 4096⟩, ⟨.instr, 4096⟩, ⟨.memref, 800⟩,
          ⟨.encoding, 4100⟩, ⟨.instr, 4100⟩, ⟨.memref, 808⟩] .commit =
      some (List.map rseq_output_t.buffered
        [⟨.marker, 0⟩, ⟨.encoding, 4096⟩, ⟨.instr, 4096⟩, ⟨.memref, 800⟩,
          ⟨.encoding, 4100⟩, ⟨.instr, 4100⟩, ⟨.memref, 808⟩]) ∧
    adjust_and_emit_rseq_buffer
        [⟨.marker, 0⟩, ⟨.encoding, 4096⟩, ⟨.instr, 4096⟩, ⟨.memref, 800⟩,
          ⟨.encoding, 4100⟩, ⟨.instr, 4100⟩, ⟨.memref, 808⟩] (.side_exit 4100) =
      adjust_and_emit_rseq_buffer
        [⟨.marker, 0⟩, ⟨.encoding, 4096⟩, ⟨.instr, 4096⟩, ⟨.memref, 800⟩,
          ⟨.encoding, 4100⟩, ⟨.instr, 4100⟩, ⟨.memref, 808⟩] (.abort 4100) ∧
    ∃ kept encodings later t,
      [(⟨.marker, 0⟩ : trace_entry_t), ⟨.encoding, 4096⟩, ⟨.instr, 4096⟩, ⟨.memref, 800⟩,
          ⟨.encoding, 4100⟩, ⟨.instr, 4100⟩, ⟨.memref, 808⟩] =
        kept ++ encodings ++ ⟨.instr, t⟩ :: later ∧
      adjust_and_emit_rseq_buffer
          [⟨.marker, 0⟩, ⟨.encoding, 4096⟩, ⟨.instr, 4096⟩, ⟨.memref, 800⟩,
            ⟨.encoding, 4100⟩, ⟨.instr, 4100⟩, ⟨.memref, 808⟩] (.abort 4100) =
        some (kept.map rseq_output_t.buffered ++
          [rseq_output_t.interrupt_marker 4100, rseq_output_t.fall_through]) ∧
      t ≤ 4100 ∧
      (∀ e ∈ [(⟨.marker, 0⟩ : trace_entry_t), ⟨.encoding, 4096⟩, ⟨.instr, 4096⟩,
          ⟨.memref, 800⟩, ⟨.encoding, 4100⟩, ⟨.instr, 4100⟩, ⟨.memref, 808⟩],
        e.type = .instr → e.addr ≤ 4100 → e.addr ≤ t) ∧
      ((∃ e ∈ [(⟨.marker, 0⟩ : trace_entry_t), ⟨.encoding, 4096⟩, ⟨.instr, 4096⟩,
          ⟨.memref, 800⟩, ⟨.encoding, 4100⟩, ⟨.instr, 4100⟩, ⟨.memref, 808⟩],
        e.type = .instr ∧ e.addr = 4100) → t = 4100) ∧
      (∀ e ∈ encodings, e.type = .encoding) ∧
      (∀ e, kept.getLast? = some e → e.type ≠ .encoding) ∧
      ∀ e ∈ later, ¬ (e.type = .instr ∧ e.addr = t)) ∧
    adjust_and_emit_rseq_buffer
        [⟨.marker, 0⟩, ⟨.encoding, 4096⟩, ⟨.instr, 4096⟩, ⟨.memref, 800⟩,
          ⟨.encoding, 4100⟩, ⟨.instr, 4100⟩, ⟨.memref, 808⟩] (.abort 4100) =
      some [.buffered ⟨.marker, 0⟩, .buffered ⟨.encoding, 4096⟩, .buffered ⟨.instr, 4096⟩,
        .buffered ⟨.memref, 800⟩, .interrupt_marker 4100, .fall_through] ∧
    adjust_and_emit_rseq_buffer
        [⟨.marker, 0⟩, ⟨.encoding, 4096⟩, ⟨.instr, 4096⟩, ⟨.memref, 800⟩,
          ⟨.encoding, 4100⟩, ⟨.instr, 4100⟩, ⟨.memref, 808⟩] (.abort 4102) =
      some [.buffered ⟨.marker, 0⟩, .buffered ⟨.encoding, 4096⟩, .buffered ⟨.instr, 4096⟩,
        .buffered ⟨.memref, 800⟩, .interrupt_marker 4102, .fall_through] :=
  ⟨rseq_buffer_commit_and_rollback
      [⟨.marker, 0⟩, ⟨.encoding, 4096⟩, ⟨.instr, 4096⟩, ⟨.memref, 800⟩,
        ⟨.encoding, 4100⟩, ⟨.instr, 4100⟩, ⟨.memref, 808⟩] 4100
      ⟨⟨.instr, 4100⟩, by decide, rfl, Nat.le_refl _⟩,
    by decide, by decide⟩

/-! ### The elided addresses -/

theorem append_memref_reg_vals (base_reg : opnd_t → Nat) (is_rel_addr : opnd_t → Bool)
    (instr : instr_summary_t) (memref : memref_summary_t) (st st1 : memref_state_t)
    (a reg : Nat) (h : append_memref base_reg is_rel_addr instr memref st = some (a, st1)) :
    st1.reg_vals reg =
      if memref.remember_base = true ∧ reg = base_reg memref.opnd then some a
      else st.reg_vals reg := by
  unfold append_memref at h
  simp only at h
  split at h
  · exact absurd h (by simp)
  · rename_i a0 raw0 hgot
    simp only [Option.some.injEq, Prod.mk.injEq] at h
    obtain ⟨ha, hst⟩ := h
    subst ha
    subst hst
    by_cases hr : memref.remember_base = true
    · by_cases hreg : reg = base_reg memref.opnd <;> simp [hr, hreg]
    · simp [hr]

theorem append_memrefs_reg_vals (base_reg : opnd_t → Nat) (is_rel_addr : opnd_t → Bool)
    (mid : List (instr_summary_t × memref_summary_t)) (st st1 : memref_state_t) (reg : Nat)
    (hmid : ∀ x ∈ mid, x.2.remember_base = true → base_reg x.2.opnd ≠ reg)
    (h : append_memrefs base_reg is_rel_addr mid st = some st1) :
    st1.reg_vals reg = st.reg_vals reg := by
  induction mid generalizing st with
  | nil =>
    simp only [append_memrefs, Option.some.injEq] at h
    rw [h]
  | cons x rest ih =>
    obtain ⟨instr, memref⟩ := x
    simp only [append_memrefs] at h
    cases hx : append_memref base_reg is_rel_addr instr memref st with
    | none => simp [hx] at h
    | some r =>
      obtain ⟨a, st0⟩ := r
      simp only [hx] at h
      rw [ih st0 (fun y hy => hmid y (List.mem_cons_of_mem _ hy)) h,
        append_memref_reg_vals base_reg is_rel_addr instr memref st st0 a reg hx]
      have hne := hmid (instr, memref) (List.mem_cons_self _ _)
      by_cases hr : memref.remember_base = true
      · have : reg ≠ base_reg memref.opnd := fun he => hne hr he.symm
        simp [this]
      · simp [hr]

/-- C15: an operand with `use_remembered_base` set takes no value from the raw stream.  If
it is PC-relative its address is the address of its own instruction.  Otherwise, when an
operand with `remember_base` set on the same base register came before it in the block,
with no other `remember_base` operand on that register in between, its address is the
address that operand stored in `reg_vals`. -/
theorem elided_address_is_remembered (base_reg : opnd_t → Nat)
    (is_rel_addr : opnd_t → Bool) (instr1 instr2 : instr_summary_t)
    (m1 m2 : memref_summary_t) (mid : List (instr_summary_t × memref_summary_t))
    (st st1 st2 : memref_state_t) (a1 : Nat)
    (huse : m2.use_remembered_base = true)
    (hrem : m1.remember_base = true)
    (hmid : ∀ x ∈ mid, x.2.remember_base = true → base_reg x.2.opnd ≠ base_reg m1.opnd)
    (h1 : append_memref base_reg is_rel_addr instr1 m1 st = some (a1, st1))
    (h2 : append_memrefs base_reg is_rel_addr mid st1 = some st2) :
    (∀ st0 : memref_state_t, is_rel_addr m2.opnd = true →
      ∃ st3, append_memref base_reg is_rel_addr instr2 m2 st0 = some (instr2.pc_, st3) ∧
        st3.raw = st0.raw) ∧
    (is_rel_addr m2.opnd = false → base_reg m2.opnd = base_reg m1.opnd →
      ∃ st3, append_memref base_reg is_rel_addr instr2 m2 st2 = some (a1, st3) ∧
        st3.raw = st2.raw) := by
  constructor
  · intro st0 hrel
    simp [append_memref, huse, hrel]
  · intro hrel hbase
    have hv1 : st1.reg_vals (base_reg m1.opnd) = some a1 := by
      rw [append_memref_reg_vals base_reg is_rel_addr instr1 m1 st st1 a1 _ h1]
      simp [hrem]
    have hv2 : st2.reg_vals (base_reg m2.opnd) = some a1 := by
      rw [hbase, append_memrefs_reg_vals base_reg is_rel_addr mid st1 st2 _ hmid h2, hv1]
    simp [append_memref, huse, hrel, hv2]

theorem elided_address_is_remembered_witness :
    (∀ st0 : memref_state_t, (fun o => decide (o = 99)) 5 = true →
      ∃ st3, append_memref (fun o => o % 16) (fun o => decide (o = 99))
          { pc_ := 4100, length_ := 4 } ⟨5, false, true⟩ st0 = some (4100, st3) ∧
        st3.raw = st0.raw) ∧
    ((fun o => decide (o = 99)) 5 = false → (fun o => o % 16) 5 = (fun o => o % 16) 21 →
      ∃ st3, append_memref (fun o => o % 16) (fun o => decide (o = 99))
          { pc_ := 4100, length_ := 4 } ⟨5, false, true⟩
          { reg_vals := fun reg =>
              if reg = (fun o => o % 16) 7 then some 900
              else if reg = (fun o => o % 16) 21 then some 800 else none
            raw := [1000] } = some (800, st3) ∧
        st3.raw = [1000]) :=
  elided_address_is_remembered (fun o => o % 16) (fun o => decide (o = 99))
    { pc_ := 4096, length_ := 4 } { pc_ := 4100, length_ := 4 }
    ⟨21, true, false⟩ ⟨5, false, true⟩
    [({ pc_ := 4096, length_ := 4 }, ⟨7, true, false⟩)]
    { reg_vals := fun _ => none, raw := [800, 900, 1000] }
    { reg_vals := fun reg => if reg = (fun o => o % 16) 21 then some 800 else none
      raw := [900, 1000] }
    { reg_vals := fun reg =>
        if reg = (fun o => o % 16) 7 then some 900
        else if reg = (fun o => o % 16) 21 then some 800 else none
      raw := [1000] }
    800 rfl rfl (by decide) rfl rfl

/-! ### Calls on one address and the other addresses -/

theorem erase_cases (s : bitset_hash_table_t) (pc : Nat) :
    s.erase pc = none ∨ s.erase pc = some (s.erased pc) := by
  unfold bitset_hash_table_t.erase bitset_hash_table_t.erased
  cases hl : s.last_block_ with
  | none => simp
  | some k =>
    by_cases hk : k = (convert pc).1
    · subst hk
      cases hp : s.page_table_ (convert pc).1 with
      | none => simp [hp]
      | some bits => simp [hp]
    · cases hp : s.page_table_ (convert pc).1 with
      | none => simp [hk, page_table_find, hp]
      | some bits => simp [hk, page_table_find, hp]

theorem page_table_erased_isSome (s : bitset_hash_table_t) (pc k : Nat) :
    ((s.erased pc).page_table_ k).isSome = (s.page_table_ k).isSome := by
  unfold bitset_hash_table_t.erased
  cases hp : s.page_table_ (convert pc).1 with
  | none => rfl
  | some bits =>
    simp only [page_table_put]
    by_cases hk : k = (convert pc).1
    · simp [hk, hp]
    · simp [hk]

/-- C21: for 64-bit addresses `pc ≠ q`, in the same block or not, and every table: a
`find_and_insert(pc)` that returns and an `erase(pc)` that returns leave unchanged
whether `q` is recorded, whether or not the block of `pc` has an entry; `erase` adds no
block to `page_table_` (a key has an entry after it exactly when it had one before); and
on a table whose cached iterator is valid both calls return. -/
theorem calls_leave_other_addresses (s : bitset_hash_table_t) (pc q : Nat)
    (hpc : pc < 2 ^ 64) (hq : q < 2 ^ 64) (hne : pc ≠ q) :
    (∀ b s1, s.find_and_insert pc = some (b, s1) → s1.recorded q = s.recorded q) ∧
    (∀ s1, s.erase pc = some s1 → s1.recorded q = s.recorded q) ∧
    (∀ s1, s.erase pc = some s1 →
      ∀ k, (s1.page_table_ k).isSome = (s.page_table_ k).isSome) ∧
    (s.last_block_valid = true →
      (∃ b s1, s.find_and_insert pc = some (b, s1)) ∧ ∃ s1, s.erase pc = some s1) := by
  have hconv : convert q ≠ convert pc := fun h => hne (convert_injective pc q hpc hq h).symm
  have herased : ∀ s1, s.erase pc = some s1 → s1 = s.erased pc := by
    intro s1 h1
    rcases erase_cases s pc with h | h
    · rw [h] at h1
      exact absurd h1 (by simp)
    · rw [h] at h1
      exact (Option.some.inj h1).symm
  refine ⟨?_, ?_, ?_, ?_⟩
  · intro b s1 h1
    rcases find_and_insert_cases s pc with h | h
    · rw [h] at h1
      exact absurd h1 (by simp)
    · rw [h] at h1
      simp only [Option.some.injEq, Prod.mk.injEq] at h1
      rw [← h1.2, recorded_inserted]
      simp [hconv]
  · intro s1 h1
    rw [herased s1 h1, recorded_erased]
    simp [hconv]
  · intro s1 h1 k
    rw [herased s1 h1]
    exact page_table_erased_isSome s pc k
  · intro hv
    exact ⟨⟨_, _, find_and_insert_eq s pc hv⟩, ⟨_, erase_eq s pc hv⟩⟩

theorem calls_leave_other_addresses_witness :
    (∀ b s1, (bitset_hash_table_t.construct.inserted 8197).find_and_insert 8198 =
        some (b, s1) →
      s1.recorded 8197 = (bitset_hash_table_t.construct.inserted 8197).recorded 8197) ∧
    (∀ s1, (bitset_hash_table_t.construct.inserted 8197).erase 8198 = some s1 →
      s1.recorded 8197 = (bitset_hash_table_t.construct.inserted 8197).recorded 8197) ∧
    (∀ s1, (bitset_hash_table_t.construct.inserted 8197).erase 8198 = some s1 →
      ∀ k, (s1.page_table_ k).isSome =
        ((bitset_hash_table_t.construct.inserted 8197).page_table_ k).isSome) ∧
    ((bitset_hash_table_t.construct.inserted 8197).last_block_valid = true →
      (∃ b s1, (bitset_hash_table_t.construct.inserted 8197).find_and_insert 8198 =
        some (b, s1)) ∧
      ∃ s1, (bitset_hash_table_t.construct.inserted 8197).erase 8198 = some s1) :=
  calls_leave_other_addresses (bitset_hash_table_t.construct.inserted 8197) 8198 8197
    (by decide) (by decide) (by decide)

/-! ### The emitted-encoding set after an erase that meets no block -/

/-- C1: the code at the failing input.  `find_and_insert(8192)` records 8192, `clear()`
drops its block, and `erase(8192)`, made with an address that a preceding
`find_and_insert` recorded, finds no block and returns with `last_block_` at
`page_table_.end()`.  8192 is then not recorded, yet `find_and_insert(8192)` does not
return true: it dereferences that iterator. -/
theorem find_and_insert_after_erase_of_cleared_address :
    (run_calls bitset_hash_table_t.construct [.find_and_insert 8192]).map
      (fun s => s.recorded 8192) = some true ∧
    (run_calls bitset_hash_table_t.construct
      [.find_and_insert 8192, .clear, .erase 8192]).map (fun s => s.last_block_) =
      some none ∧
    (run_calls bitset_hash_table_t.construct
      [.find_and_insert 8192, .clear, .erase 8192]).map (fun s => s.recorded 8192) =
      some false ∧
    ((run_calls bitset_hash_table_t.construct
      [.find_and_insert 8192, .clear, .erase 8192]).bind
        (fun s => s.find_and_insert 8192)).isNone = true := by
  decide

/-- C2: the code at the failing input.  After `find_and_insert(8192)`, `clear()`,
`find_and_insert(5)` and `erase(8192)`, an erase of an address that was recorded, 5 is
recorded and neither `erase(5)` nor `clear()` has followed its `find_and_insert`; the
second `find_and_insert(5)` does not return false: `erase(8192)` left `last_block_` at
`page_table_.end()` and the call dereferences it. -/
theorem second_find_and_insert_after_erase_of_cleared_address :
    ((run_calls bitset_hash_table_t.construct
      [.find_and_insert 8192, .clear]).bind (fun s => s.find_and_insert 5)).map
        Prod.fst = some true ∧
    (run_calls bitset_hash_table_t.construct
      [.find_and_insert 8192, .clear, .find_and_insert 5, .erase 8192]).map
        (fun s => s.recorded 5) = some true ∧
    (run_calls bitset_hash_table_t.construct
      [.find_and_insert 8192, .clear, .find_and_insert 5, .erase 8192]).map
        (fun s => s.last_block_) = some none ∧
    ((run_calls bitset_hash_table_t.construct
      [.find_and_insert 8192, .clear, .find_and_insert 5, .erase 8192]).bind
        (fun s => s.find_and_insert 5)).isNone = true := by
  decide

/-- C3: the code at the failing input.  On a fresh table `erase(8192)` finds no block and
leaves `last_block_` at `page_table_.end()`.  In that table the block of address 5, keyed
0, has an entry, yet `erase(5)` does not return with 5 not recorded: it dereferences that
iterator. -/
theorem erase_after_erase_of_absent_block :
    (bitset_hash_table_t.construct.erase 8192).map (fun s => s.block_present 5) =
      some true ∧
    (bitset_hash_table_t.construct.erase 8192).map (fun s => s.last_block_) = some none ∧
    ((bitset_hash_table_t.construct.erase 8192).bind (fun s => s.erase 5)).isNone = true := by
  decide

end raw2trace
